import Mathlib

/-!
Verification of the go-ldapdn DN library (parser, escaper, stringifier,
comparators, tree edits and tree sort order) against its specification.

The data model and every operation of the library are embedded shallowly:
Go strings become Lean `String`/`List Char`, Go slices become `List`,
methods that mutate their receiver become functions returning the new
receiver state, and fallible operations return `Option`.

The DN text parser itself (`ldap.ParseDN` of gopkg.in/ldap.v2) is not part
of the repository sources; it is modelled from the specification's grammar
(spec section 4.2), see `parseDNChars` below.  Everything else is
translated directly from `ldapdn.go`.
-/

/-! ## Character helpers (ASCII model of Go's strings.ToLower etc.) -/

/-- ASCII lowercasing of one character, the model of Go's `strings.ToLower`
applied per character (the DN texts involved are ASCII-cased). -/
def lowerChar (c : Char) : Char :=
  if 65 ≤ c.toNat ∧ c.toNat ≤ 90 then Char.ofNat (c.toNat + 32) else c

/-- ASCII uppercasing of one character (used by the model of `strings.Title`). -/
def upperChar (c : Char) : Char :=
  if 97 ≤ c.toNat ∧ c.toNat ≤ 122 then Char.ofNat (c.toNat - 32) else c

/-- Lowercase a character list. -/
def lowerL (l : List Char) : List Char := l.map lowerChar

def isAlphaC (c : Char) : Bool :=
  (65 ≤ c.toNat && c.toNat ≤ 90) || (97 ≤ c.toNat && c.toNat ≤ 122)

def isDigitC (c : Char) : Bool := 48 ≤ c.toNat && c.toNat ≤ 57

/-- Value of a hex digit (both cases accepted, as in `encoding/hex`). -/
def hexVal (c : Char) : Option Nat :=
  if 48 ≤ c.toNat ∧ c.toNat ≤ 57 then some (c.toNat - 48)
  else if 97 ≤ c.toNat ∧ c.toNat ≤ 102 then some (c.toNat - 87)
  else if 65 ≤ c.toNat ∧ c.toNat ≤ 70 then some (c.toNat - 55)
  else none

def isHexDigit (c : Char) : Bool := (hexVal c).isSome

/-- Lowercase hex digit for `n < 16`, as produced by Go's
`encoding/hex.EncodeToString`. -/
def hexDigitChar (n : Nat) : Char :=
  if n < 10 then Char.ofNat (48 + n) else Char.ofNat (87 + n)

/-! ## Escaper (from `escapeValue` in ldapdn.go) -/

/-- The reserved characters escaped by `escapeValue`. -/
def isSpecialChar (c : Char) : Bool :=
  c == ',' || c == '+' || c == '"' || c == '\\' || c == '<' ||
  c == '>' || c == ';' || c == '#' || c == '='

/-- Escape one character the way `escapeValue` does: reserved characters
get a backslash, control characters (code point below 32) become a
backslash followed by two lowercase hex digits, everything else passes. -/
def escapeChar (c : Char) : List Char :=
  if isSpecialChar c then ['\\', c]
  else if c.toNat < 32 then ['\\', hexDigitChar (c.toNat / 16), hexDigitChar (c.toNat % 16)]
  else [c]

def escL (v : List Char) : List Char := (v.map escapeChar).flatten

/-- Go `escapeValue` on strings. -/
def escapeValue (v : String) : String := ⟨escL v.data⟩

/-! ## Data model (structs `DN`, `RelativeDN`, `AttributeTypeAndValue`) -/

/-- Go's `ldap.AttributeTypeAndValue`. The Go field `Type` is spelled
`Type'` because `Type` is a Lean keyword. -/
structure AttributeTypeAndValue where
  Type' : String
  Value : String
deriving DecidableEq

/-- Go's `RelativeDN` (the embedded `*ldap.RelativeDN` flattened into the
attribute list it consists of). -/
structure RelativeDN where
  Attributes : List AttributeTypeAndValue
deriving DecidableEq

/-- Go's `DN` struct of ldapdn.go. -/
structure DN where
  RDNs : List RelativeDN
  CaseFold : Bool
  StringFold : Bool
deriving DecidableEq

/-! ## Canonical stringifier (from `RelativeDN.String` / `DN.String`) -/

/-- Strict byte-wise lexicographic comparison of character lists, the model
of Go's `<` on strings. -/
def ltL : List Char → List Char → Bool
  | [], [] => false
  | [], _ :: _ => true
  | _ :: _, [] => false
  | a :: as, b :: bs => if a < b then true else if b < a then false else ltL as bs

/-- Stable insertion of an AVA into a list sorted by raw `Type`, tie kept
after existing entries only when strictly greater: an element is placed
before the first entry that is not strictly smaller, so equal keys keep
their original relative order. -/
def insertAVA (a : AttributeTypeAndValue) :
    List AttributeTypeAndValue → List AttributeTypeAndValue
  | [] => [a]
  | b :: l => if ltL b.Type'.data a.Type'.data then b :: insertAVA a l else a :: b :: l

/-- The in-place `sort.Sort(ava(attrs))` of `RelativeDN.String`, modelled as
a stable sort by the raw `Type` string (Go uses insertion sort for the
small attribute lists involved; the spec mandates ties keep original
order). -/
def sortAVAs : List AttributeTypeAndValue → List AttributeTypeAndValue
  | [] => []
  | a :: l => insertAVA a (sortAVAs l)

/-- One rendered `type=value` segment: type lowercased, value escaped. -/
def segChars (a : AttributeTypeAndValue) : List Char :=
  lowerL a.Type'.data ++ '=' :: escL a.Value.data

/-- Go's `strings.Join` on character lists. -/
def interL (sep : List Char) : List (List Char) → List Char
  | [] => []
  | [x] => x
  | x :: y :: xs => x ++ sep ++ interL sep (y :: xs)

/-- `RelativeDN.String`: sort the AVAs by type, render each as
`type=escapedValue` and join with `+`. -/
def RelativeDN.toString (r : RelativeDN) : String :=
  ⟨interL ['+'] ((sortAVAs r.Attributes).map segChars)⟩

/-- Character-level body of `DN.String` before the optional fold. -/
def dnChars (rdns : List RelativeDN) : List Char :=
  interL [','] (rdns.map fun r => interL ['+'] ((sortAVAs r.Attributes).map segChars))

/-- `DN.String`: join the stringified RDNs with `,`; lowercase the whole
result when `StringFold` is set. -/
def DN.toString (dn : DN) : String :=
  if dn.StringFold then ⟨lowerL (dnChars dn.RDNs)⟩ else ⟨dnChars dn.RDNs⟩

/-! ## Comparator (from `RelativeDN.Equal`, `DN.Equal`, `DN.IsSubordinate`) -/

/-- `RelativeDN.Equal`: same AVA count, types equal case-insensitively,
values equal exactly, or case-insensitively when `fold` is set
(`strings.EqualFold` modelled as equality of the lowercased strings). -/
def RelativeDN.Equal (r o : RelativeDN) (fold : Bool) : Bool :=
  if r.Attributes.length ≠ o.Attributes.length then false
  else (r.Attributes.zip o.Attributes).all fun p =>
    decide (lowerL p.1.Type'.data = lowerL p.2.Type'.data) &&
    (if fold then decide (lowerL p.1.Value.data = lowerL p.2.Value.data)
     else decide (p.1.Value = p.2.Value))

/-- `DN.Equal`: same RDN count and position-by-position RDN equality using
the receiver's `CaseFold`. -/
def DN.Equal (dn other : DN) : Bool :=
  if dn.RDNs.length ≠ other.RDNs.length then false
  else (dn.RDNs.zip other.RDNs).all fun p => RelativeDN.Equal p.1 p.2 dn.CaseFold

/-- `DN.IsSubordinate`: a `nil` other is never an ancestor; with
`off = len(dn) - len(other) ≤ 0` the answer is false; otherwise each RDN of
`other` is compared against `dn.RDNs[off+i]` (modelled with `drop`/`zip`). -/
def DN.IsSubordinate (dn : DN) (other : Option DN) : Bool :=
  match other with
  | none => false
  | some o =>
    if dn.RDNs.length ≤ o.RDNs.length then false
    else (o.RDNs.zip (dn.RDNs.drop (dn.RDNs.length - o.RDNs.length))).all fun p =>
      RelativeDN.Equal p.1 p.2 dn.CaseFold

/-! ## Tree edits (from `Strip`, `Clone`, `Parent`, `RDN`, `Pretty`, `Reverse`) -/

def ErrDNNotSubordinate : String := "Not a subordinate"

/-- `DN.Strip` mutates its receiver; the model returns the error slot and
the state of the receiver after the call. -/
def DN.Strip (dn base : DN) : Option String × DN :=
  if dn.IsSubordinate (some base) then
    (none, { dn with RDNs := dn.RDNs.take (dn.RDNs.length - base.RDNs.length) })
  else (some ErrDNNotSubordinate, dn)

/-- `DN.Clone` copies the RDN and AVA contents into fresh values; the Go
clone starts from `&DN{}`, so both flags come back false. -/
def DN.Clone (dn : DN) : DN :=
  ⟨dn.RDNs.map fun r => ⟨r.Attributes.map fun a => ⟨a.Type', a.Value⟩⟩, false, false⟩

/-- `DN.Parent`: clone, then cut the leaf RDN. -/
def DN.Parent (dn : DN) : DN :=
  let c := dn.Clone
  if c.RDNs.length > 0 then { c with RDNs := c.RDNs.drop 1 } else { c with RDNs := [] }

/-- `DN.RDN`: the first AVA value of the leaf RDN, or the empty string. -/
def DN.RDN (dn : DN) : String :=
  match dn.RDNs with
  | [] => ""
  | r :: _ => match r.Attributes with | [] => "" | a :: _ => a.Value

/-- `DN.Reverse` mirrors the RDN order, keeping both flags. -/
def DN.Reverse (d : DN) : DN := ⟨d.RDNs.reverse, d.CaseFold, d.StringFold⟩

/-- ASCII model of Go's `strings.Title`: uppercase every letter that
follows a non-letter. -/
def titleAux : Bool → List Char → List Char
  | _, [] => []
  | prevLetter, c :: cs => (if prevLetter then c else upperChar c) :: titleAux (isAlphaC c) cs

def titleCase (s : String) : String := ⟨titleAux false s.data⟩

/-- The leaf-value collection loop of `DN.Pretty`: read `RDN()`, ascend to
`Parent()` until the value read is empty. -/
def collectParts : List RelativeDN → List String
  | [] => []
  | r :: rest =>
    let v := match r.Attributes with | [] => "" | a :: _ => a.Value
    if v = "" then [] else v :: collectParts rest

/-- `DN.Pretty`: default separator `/`, default transform `strings.Title`;
the base is stripped from the receiver itself (`_ = dn.Strip(base)`), so
the pair returned is (pretty string, receiver state after the call). -/
def DN.Pretty (dn base : DN) (sep : String) (conv : Option (String → String)) :
    String × DN :=
  let sep2 := if sep = "" then "/" else sep
  let conv2 := conv.getD titleCase
  let st := dn.Strip base
  let parts := collectParts st.2.RDNs
  (String.intercalate sep2 ((parts.reverse).map conv2), st.2)

/-! ## Tree sort order (from `DNS.Less` of the current source and
`RelativeDN.Less` of the earlier ldapdn.go) -/

/-- `b > a` on Go strings. -/
def gtL (a b : List Char) : Bool := ltL b a

/-- `DNS.Less` on a pair of DNs: subordinates sort first, otherwise the
reversed canonical strings are compared in descending order, lowercased
when the left element's `CaseFold` is set. -/
def DNS.Less (a b : DN) : Bool :=
  if a.IsSubordinate (some b) then true
  else if a.CaseFold then
    gtL (lowerL (DN.toString a.Reverse).data) (lowerL (DN.toString b.Reverse).data)
  else gtL (DN.toString a.Reverse).data (DN.toString b.Reverse).data

/-- The positional scan of `RelativeDN.Less` (src/ldapdn.go): at each
index, return true when the lowercased type compares strictly smaller or
when the (optionally folded) value compares strictly smaller; otherwise
move on.  The loop never returns false early. -/
def lessLoop : List AttributeTypeAndValue → List AttributeTypeAndValue → Bool → Bool
  | a :: as, b :: bs, fold =>
    if ltL (lowerL a.Type'.data) (lowerL b.Type'.data) then true
    else if (if fold then ltL (lowerL a.Value.data) (lowerL b.Value.data)
             else ltL a.Value.data b.Value.data) then true
    else lessLoop as bs fold
  | _, _, _ => false

/-- `RelativeDN.Less` of src/ldapdn.go. -/
def RelativeDN.Less (r o : RelativeDN) (fold : Bool) : Bool :=
  if r.Attributes.length ≠ o.Attributes.length then
    decide (r.Attributes.length < o.Attributes.length)
  else lessLoop r.Attributes o.Attributes fold

/-! ## Parser, modelled from the spec

Modelled from the spec: `ldap.ParseDN` of gopkg.in/ldap.v2 is not part of
this repository's sources, so the DN text grammar of spec section 4.2 is
implemented here: `DN := RDN (',' RDN)*` (empty input is the empty DN),
`RDN := AVA ('+' AVA)*`, `AVA := AttrType '=' AttrValue`, attribute types
are descriptors or dotted OIDs with an optional case-insensitive `oid.`
run stripped, attribute values are `#hex`, quoted, or unquoted with
escapes decoded by the Escaper, whitespace (modelled as the space
character) around `=` and the value boundaries is trimmed, and the whole
input must be consumed. -/

def skipSpaces (s : List Char) : List Char := s.dropWhile (fun c => decide (c = ' '))

def trimL (l : List Char) : List Char :=
  ((l.dropWhile (fun c => decide (c = ' '))).reverse.dropWhile
    (fun c => decide (c = ' '))).reverse

/-- One unescaped unit of an unquoted value: either a raw character or the
character produced by decoding a backslash escape. -/
inductive VUnit where
  | raw (c : Char)
  | esc (c : Char)
deriving DecidableEq

/-- The reserved and space characters whose escaped form is the literal
character. -/
def isReservedOrSpace (c : Char) : Bool := isSpecialChar c || c == ' '

/-- Scan an unquoted attribute value up to an unescaped `,`/`+` or the end
of input, decoding `\c` and `\xx` escapes into units. -/
def scanValue : List Char → Option (List VUnit × List Char)
  | [] => some ([], [])
  | c :: cs =>
    if c = ',' ∨ c = '+' then some ([], c :: cs)
    else if c = '\\' then
      match cs with
      | [] => none
      | e :: cs2 =>
        if isReservedOrSpace e then
          (scanValue cs2).map fun p => (VUnit.esc e :: p.1, p.2)
        else
          match cs2 with
          | [] => none
          | e2 :: cs3 =>
            match hexVal e, hexVal e2 with
            | some h1, some h2 =>
              (scanValue cs3).map fun p => (VUnit.esc (Char.ofNat (16 * h1 + h2)) :: p.1, p.2)
            | _, _ => none
    else if c = '"' ∨ c = ';' ∨ c = '<' ∨ c = '>' ∨ c = '#' ∨ c = '=' then none
    else (scanValue cs).map fun p => (VUnit.raw c :: p.1, p.2)

/-- Drop the unescaped trailing spaces of an unquoted value (spec: leading
and trailing whitespace of a value is insignificant, escaped spaces are
kept). -/
def trimTrailUnits (us : List VUnit) : List VUnit :=
  ((us.reverse).dropWhile (fun u => decide (u = VUnit.raw ' '))).reverse

def decodeUnits (us : List VUnit) : List Char :=
  us.map fun u => match u with | .raw c => c | .esc c => c

/-- Descriptor form of an attribute type: a letter followed by letters,
digits and hyphens. -/
def descriptorOK : List Char → Bool
  | [] => false
  | c :: cs => isAlphaC c && cs.all fun d => isAlphaC d || isDigitC d || d == '-'

/-- Acceptor state machine for the dotted numeric OID form: digit groups
separated by single dots.  The flag records whether the previous character
was a digit. -/
def numOidAux : Bool → List Char → Bool
  | seen, [] => seen
  | seen, c :: cs =>
    if isDigitC c then numOidAux true cs
    else if c = '.' ∧ seen then numOidAux false cs
    else false

def numericOidOK (l : List Char) : Bool := numOidAux false l

/-- Strip the case-insensitive `oid.` run in front of a dotted OID. -/
def stripOid (t : List Char) : List Char :=
  if lowerL (t.take 4) = ['o', 'i', 'd', '.'] then t.drop 4 else t

/-- Validate and normalize one attribute type token: trim, accept a
descriptor as is, else strip the `oid.` run and accept a numeric OID. -/
def parseTypeTok (tok : List Char) : Option (List Char) :=
  let t := trimL tok
  if descriptorOK t then some t
  else
    let u := stripOid t
    if numericOidOK u then some u else none

/-- Decode pairs of hex digits into characters (`#...` BER form). -/
def hexDecode : List Char → List Char
  | h1 :: h2 :: r =>
    Char.ofNat (16 * ((hexVal h1).getD 0) + (hexVal h2).getD 0) :: hexDecode r
  | _ => []

/-- Parse one attribute value after the `=`: leading spaces skipped, then
the `#hex` form, the quoted form, or an unquoted escaped run trimmed of
trailing spaces.  Returns the decoded value and the rest of the input,
positioned at a separator or the end. -/
def parseValue (s : List Char) : Option (List Char × List Char) :=
  match skipSpaces s with
  | [] => some ([], [])
  | c :: cs =>
    if c = '#' then
      if cs.takeWhile isHexDigit ≠ [] ∧ (cs.takeWhile isHexDigit).length % 2 = 0 then
        if skipSpaces (cs.dropWhile isHexDigit) = [] ∨
            (skipSpaces (cs.dropWhile isHexDigit)).head? = some ',' ∨
            (skipSpaces (cs.dropWhile isHexDigit)).head? = some '+' then
          some (hexDecode (cs.takeWhile isHexDigit), skipSpaces (cs.dropWhile isHexDigit))
        else none
      else none
    else if c = '"' then
      if ((cs.dropWhile fun x => decide (x ≠ '"')).head? = some '"') then
        if skipSpaces (cs.dropWhile fun x => decide (x ≠ '"')).tail = [] ∨
            (skipSpaces (cs.dropWhile fun x => decide (x ≠ '"')).tail).head? = some ',' ∨
            (skipSpaces (cs.dropWhile fun x => decide (x ≠ '"')).tail).head? = some '+' then
          some (cs.takeWhile fun x => decide (x ≠ '"'),
            skipSpaces (cs.dropWhile fun x => decide (x ≠ '"')).tail)
        else none
      else none
    else (scanValue (c :: cs)).map fun p => (decodeUnits (trimTrailUnits p.1), p.2)

/-- Parse one AVA: the type token up to `=` (trimmed and validated by
`parseTypeTok`), then the value after the `=`. -/
def parseAVA (s : List Char) : Option (String × String × List Char) :=
  if (((skipSpaces s).dropWhile fun c => decide (c ≠ '=')).head? = some '=') then
    match parseTypeTok ((skipSpaces s).takeWhile fun c => decide (c ≠ '=')) with
    | none => none
    | some t =>
      match parseValue (((skipSpaces s).dropWhile fun c => decide (c ≠ '=')).tail) with
      | none => none
      | some (v, r2) => some (⟨t⟩, ⟨v⟩, r2)
  else none

/-- Parse one RDN as an AVA chain joined by `+` (fuel bounds the number of
AVAs; every AVA consumes input, so the input length is enough). -/
def parseRDN : Nat → List Char → Option (List AttributeTypeAndValue × List Char)
  | 0, _ => none
  | fuel + 1, s =>
    match parseAVA s with
    | none => none
    | some (t, v, rest) =>
      match rest with
      | '+' :: r => (parseRDN fuel r).map fun p => (⟨t, v⟩ :: p.1, p.2)
      | _ => some ([⟨t, v⟩], rest)

/-- Parse the comma-separated RDN sequence; the whole input must be
consumed. -/
def parseRDNList : Nat → List Char → Option (List RelativeDN)
  | 0, _ => none
  | fuel + 1, s =>
    match parseRDN (fuel + 1) s with
    | none => none
    | some (attrs, rest) =>
      match rest with
      | [] => some [⟨attrs⟩]
      | ',' :: r => (parseRDNList fuel r).map fun rdns => ⟨attrs⟩ :: rdns
      | _ => none

/-- Modelled from the spec: the DN text parser (`ldap.ParseDN`).  The
empty (or all-space) input is the empty DN; otherwise the input must be a
full match of the RDN list grammar. -/
def parseDNChars (s : List Char) : Option (List RelativeDN) :=
  if skipSpaces s = [] then some []
  else parseRDNList ((skipSpaces s).length + 1) (skipSpaces s)

/-- The type-trimming loop of `New`: `av.Type = strings.TrimSpace(av.Type)`
applied to every AVA. -/
def trimRdns (rdns : List RelativeDN) : List RelativeDN :=
  rdns.map fun r =>
    RelativeDN.mk (r.Attributes.map fun a => ⟨⟨trimL a.Type'.data⟩, a.Value⟩)

/-- `New` of ldapdn.go: parse, trim every attribute type, and set both
fold flags from the first optional argument (Go's variadic `fold ...bool`
is modelled as a list). -/
def New (s : String) (fold : List Bool) : Option DN :=
  match parseDNChars s.data, fold with
  | none, _ => none
  | some rdns, b :: _ => some ⟨trimRdns rdns, b, b⟩
  | some rdns, [] => some ⟨trimRdns rdns, false, false⟩

/-- `CanonicalDN` of ldapdn.go: `New` then `String`. -/
def CanonicalDN (s : String) (fold : List Bool) : Option String :=
  (New s fold).map DN.toString

/-! ## Pointer-sharing model for the derivation operations

Go's `Append` and `Move` copy `*RelativeDN` pointers, while `Clone` and
`Parent` allocate fresh RDN and AVA structs.  To state sharing claims,
RDN objects live in a heap (a list of `RelativeDN` cells) and a `DNRef`
holds cell indices in place of pointers. -/

structure DNRef where
  RDNs : List Nat
deriving DecidableEq

/-- Heap-level `Clone`: fresh cells are appended for every RDN of `dn`
(each cell's attribute structs are copied), and the clone points at the
fresh cells only. -/
def cloneH (h : List RelativeDN) (dn : DNRef) : List RelativeDN × DNRef :=
  (h ++ dn.RDNs.map fun i =>
    RelativeDN.mk ((h.getD i ⟨[]⟩).Attributes.map fun a => ⟨a.Type', a.Value⟩),
   ⟨(List.range dn.RDNs.length).map (· + h.length)⟩)

/-- Heap-level `Parent`: clone, then drop the leaf. -/
def parentH (h : List RelativeDN) (dn : DNRef) : List RelativeDN × DNRef :=
  let p := cloneH h dn
  (p.1, ⟨p.2.RDNs.drop 1⟩)

/-- Heap-level `Append`: `dn.RDNs = append(dn.RDNs, other.RDNs...)` copies
the pointers; no new cell is allocated. -/
def appendH (dn other : DNRef) : DNRef := ⟨dn.RDNs ++ other.RDNs⟩

/-- Heap-level `Move`: keep the leaf pointer and append the new base's
pointers. -/
def moveH (dn other : DNRef) : DNRef := ⟨dn.RDNs.take 1 ++ other.RDNs⟩

/-- Two DN values share a mutable RDN object exactly when they hold a
common cell index. -/
def sharesRDN (a b : DNRef) : Bool := a.RDNs.any fun i => b.RDNs.contains i

/-- All pointers of the reference live inside the heap. -/
def validRef (h : List RelativeDN) (dn : DNRef) : Bool := dn.RDNs.all (· < h.length)

/-! ## Side predicates used in the claim statements -/

/-- Adjacent non-decreasing check for the raw `Type` keys, the sortedness
target of the `ava` ordering. -/
def sortedByTypeB : List AttributeTypeAndValue → Bool
  | [] => true
  | [_] => true
  | a :: b :: t => !ltL b.Type'.data a.Type'.data && sortedByTypeB (b :: t)

/-- Adjacent non-decreasing check on character lists. -/
def chainLeL : List (List Char) → Bool
  | [] => true
  | [_] => true
  | a :: b :: t => !ltL b a && chainLeL (b :: t)

/-- A value neither starts nor ends with a space (such values cannot
survive the parser's boundary trimming once printed unescaped). -/
def edgeSafeL (v : List Char) : Bool :=
  decide (v.head? ≠ some ' ') && decide (v.getLast? ≠ some ' ')

def edgeSafeDN (dn : DN) : Bool :=
  dn.RDNs.all fun r => r.Attributes.all fun a => edgeSafeL a.Value.data

/-- Lowercasing the types of the sorted AVAs keeps them sorted: under this
condition re-canonicalization cannot reorder them. -/
def stableSorted (dn : DN) : Bool :=
  dn.RDNs.all fun r => chainLeL ((sortAVAs r.Attributes).map fun a => lowerL a.Type'.data)

/-- The DN with each RDN's AVAs sorted by type, flags kept. -/
def sortedDN (dn : DN) : DN :=
  ⟨dn.RDNs.map fun r => ⟨sortAVAs r.Attributes⟩, dn.CaseFold, dn.StringFold⟩

/-- The comparison the claim describes for `rdnLess`: pairs
`(lowercased type, value — lowercased when folded)` compared
lexicographically, deciding at the first strictly smaller or strictly
greater position. -/
def pairLt (fold : Bool) (a b : AttributeTypeAndValue) : Bool :=
  let ta := lowerL a.Type'.data
  let tb := lowerL b.Type'.data
  let va := if fold then lowerL a.Value.data else a.Value.data
  let vb := if fold then lowerL b.Value.data else b.Value.data
  ltL ta tb || (decide (ta = tb) && ltL va vb)

def specLoop (fold : Bool) : List AttributeTypeAndValue → List AttributeTypeAndValue → Bool
  | a :: as, b :: bs =>
    if pairLt fold a b then true
    else if pairLt fold b a then false
    else specLoop fold as bs
  | _, _ => false

/-- The claim's description of `rdnLess` as a whole. -/
def rdnLessSpec (r o : RelativeDN) (fold : Bool) : Bool :=
  if r.Attributes.length ≠ o.Attributes.length then
    decide (r.Attributes.length < o.Attributes.length)
  else specLoop fold r.Attributes o.Attributes

/-- The stringification the claim describes: each RDN rendered as
`type=escapedValue` segments (AVAs sorted by type per the invariant)
joined by `+`, the RDN strings joined by `,` leaf first. -/
def stringifySpec (dn : DN) : String :=
  ⟨interL [','] (dn.RDNs.map fun r =>
    interL ['+'] ((sortAVAs r.Attributes).map fun a =>
      lowerL a.Type'.data ++ '=' :: escL a.Value.data))⟩

/-! ## Plain (unsorted) renderings and well-formedness predicates used by
the round-trip development -/

/-- Render an AVA list as `+`-joined segments without sorting (the body of
`RelativeDN.String` after the sort has happened). -/
def plainRDNChars (attrs : List AttributeTypeAndValue) : List Char :=
  interL ['+'] (attrs.map segChars)

/-- Render an RDN list as `,`-joined segments without sorting. -/
def plainDNChars (rdns : List RelativeDN) : List Char :=
  interL [','] (rdns.map fun r => plainRDNChars r.Attributes)

/-- Characters allowed in a stored attribute type: letters, digits,
hyphen, dot. -/
def typeChar (c : Char) : Bool := isAlphaC c || isDigitC c || c == '-' || c == '.'

/-- A stored attribute type is a descriptor or a numeric OID (the `oid.`
run already stripped). -/
def storedTypeOK (t : List Char) : Bool := descriptorOK t || numericOidOK t

/-- The unit list `scanValue` produces for an escaped value. -/
def unitsOf (v : List Char) : List VUnit :=
  v.map fun c =>
    if isSpecialChar c || decide (c.toNat < 32) then VUnit.esc c else VUnit.raw c

/-- Lowercase every attribute type of an RDN list (what a reparse of the
canonical form stores). -/
def lowerTypesL (rdns : List RelativeDN) : List RelativeDN :=
  rdns.map fun r =>
    RelativeDN.mk (r.Attributes.map fun a => ⟨⟨lowerL a.Type'.data⟩, a.Value⟩)

/-- Total number of AVAs of an RDN list (a fuel measure). -/
def totalAVAs (rdns : List RelativeDN) : Nat :=
  (rdns.map fun r => r.Attributes.length).sum

/-- The shape the parser guarantees: every RDN non-empty and every stored
type a descriptor or numeric OID. -/
def wfRDNs (rdns : List RelativeDN) : Bool :=
  rdns.all fun r =>
    !r.Attributes.isEmpty && r.Attributes.all fun a => storedTypeOK a.Type'.data

/-! ## General lemmas -/

theorem char_toNat_inj {a b : Char} (h : a.toNat = b.toNat) : a = b := by
  have h2 := congrArg Char.ofNat h
  rwa [Char.ofNat_toNat, Char.ofNat_toNat] at h2

theorem bor_iff {a b : Bool} : (a || b) = true ↔ a = true ∨ b = true := by simp

theorem band_iff {a b : Bool} : (a && b) = true ↔ a = true ∧ b = true := by simp

theorem ltL_asymm : ∀ {x y : List Char}, ltL x y = true → ltL y x = false := by
  intro x
  induction x with
  | nil =>
    intro y h
    cases y with
    | nil => simp [ltL] at h
    | cons b bs => simp [ltL]
  | cons a as ih =>
    intro y h
    cases y with
    | nil => simp [ltL] at h
    | cons b bs =>
      simp only [ltL] at h ⊢
      by_cases hab : a < b
      · have hba : ¬ b < a := lt_asymm hab
        rw [if_neg hba, if_pos hab]
      · by_cases hba : b < a
        · rw [if_neg hab, if_pos hba] at h
          exact absurd h (by simp)
        · rw [if_neg hab, if_neg hba] at h
          rw [if_neg hba, if_neg hab]
          exact ih h

theorem ltL_append_self : ∀ (s e : List Char), ltL (s ++ e) s = false := by
  intro s
  induction s with
  | nil =>
    intro e
    cases e with
    | nil => rfl
    | cons c cs => rfl
  | cons a s' ih =>
    intro e
    simp only [List.cons_append, ltL, lt_irrefl, if_false]
    exact ih e

theorem sortedByTypeB_cons_cons (a b : AttributeTypeAndValue) (t : List AttributeTypeAndValue) :
    sortedByTypeB (a :: b :: t) = (!ltL b.Type'.data a.Type'.data && sortedByTypeB (b :: t)) := rfl

theorem insertAVA_sorted (a : AttributeTypeAndValue) :
    ∀ l, sortedByTypeB l = true → sortedByTypeB (insertAVA a l) = true := by
  intro l
  induction l with
  | nil => intro _; rfl
  | cons b l ih =>
    intro h
    show sortedByTypeB (if ltL b.Type'.data a.Type'.data then b :: insertAVA a l
      else a :: b :: l) = true
    by_cases hba : ltL b.Type'.data a.Type'.data = true
    · rw [if_pos hba]
      cases l with
      | nil =>
        show sortedByTypeB (b :: [a]) = true
        rw [sortedByTypeB_cons_cons]
        simp [ltL_asymm hba, sortedByTypeB]
      | cons y l' =>
        rw [sortedByTypeB_cons_cons] at h
        obtain ⟨h1, h2⟩ := Bool.and_eq_true_iff.mp h
        have hins := ih h2
        show sortedByTypeB (b :: insertAVA a (y :: l')) = true
        show sortedByTypeB (b :: if ltL y.Type'.data a.Type'.data then y :: insertAVA a l'
          else a :: y :: l') = true
        by_cases hya : ltL y.Type'.data a.Type'.data = true
        · rw [if_pos hya]
          rw [sortedByTypeB_cons_cons]
          have : insertAVA a (y :: l') = y :: insertAVA a l' := by
            show (if ltL y.Type'.data a.Type'.data then y :: insertAVA a l'
              else a :: y :: l') = y :: insertAVA a l'
            rw [if_pos hya]
          rw [this] at hins
          rw [h1, hins]
          rfl
        · rw [if_neg hya]
          rw [sortedByTypeB_cons_cons, sortedByTypeB_cons_cons]
          simp only [Bool.and_eq_true_iff, Bool.not_eq_true']
          exact ⟨ltL_asymm hba, Bool.eq_false_iff.mpr hya, h2⟩
    · rw [if_neg hba]
      rw [sortedByTypeB_cons_cons]
      simp only [Bool.and_eq_true_iff, Bool.not_eq_true']
      exact ⟨by simpa using hba, h⟩

theorem sortAVAs_sorted (l : List AttributeTypeAndValue) :
    sortedByTypeB (sortAVAs l) = true := by
  induction l with
  | nil => rfl
  | cons a l ih => exact insertAVA_sorted a (sortAVAs l) ih

theorem sortAVAs_eq_self : ∀ {l : List AttributeTypeAndValue},
    sortedByTypeB l = true → sortAVAs l = l := by
  intro l
  induction l with
  | nil => intro _; rfl
  | cons a l ih =>
    intro h
    have hl : sortedByTypeB l = true := by
      cases l with
      | nil => rfl
      | cons b t =>
        rw [sortedByTypeB_cons_cons] at h
        exact (Bool.and_eq_true_iff.mp h).2
    show insertAVA a (sortAVAs l) = a :: l
    rw [ih hl]
    cases l with
    | nil => rfl
    | cons b t =>
      rw [sortedByTypeB_cons_cons] at h
      obtain ⟨h1, _⟩ := Bool.and_eq_true_iff.mp h
      show (if ltL b.Type'.data a.Type'.data then b :: insertAVA a t
        else a :: b :: t) = a :: b :: t
      rw [if_neg (by simpa using h1)]

theorem sortAVAs_idem (l : List AttributeTypeAndValue) :
    sortAVAs (sortAVAs l) = sortAVAs l :=
  sortAVAs_eq_self (sortAVAs_sorted l)

theorem isSub_length {dn o : DN} (h : dn.IsSubordinate (some o) = true) :
    o.RDNs.length < dn.RDNs.length := by
  by_cases hle : dn.RDNs.length ≤ o.RDNs.length
  · have h2 : dn.IsSubordinate (some o) = false := by
      show (if dn.RDNs.length ≤ o.RDNs.length then false else _) = false
      rw [if_pos hle]
    rw [h] at h2
    exact absurd h2 (by simp)
  · omega

theorem getD_drop (l : List RelativeDN) (n i : Nat) :
    (l.drop n).getD i ⟨[]⟩ = l.getD (n + i) ⟨[]⟩ := by
  rw [List.getD_eq_getElem?_getD, List.getD_eq_getElem?_getD, List.getElem?_drop]

theorem zip_all_getD_iff (P : RelativeDN × RelativeDN → Bool) :
    ∀ (xs ys : List RelativeDN), xs.length ≤ ys.length →
      ((xs.zip ys).all P = true ↔
        ∀ i, i < xs.length → P (xs.getD i ⟨[]⟩, ys.getD i ⟨[]⟩) = true) := by
  intro xs
  induction xs with
  | nil => intro ys _; simp [List.zip]
  | cons x xs ih =>
    intro ys hlen
    cases ys with
    | nil => simp at hlen
    | cons y ys =>
      simp only [List.zip_cons_cons, List.all_cons, Bool.and_eq_true_iff]
      rw [ih ys (by simpa using hlen)]
      constructor
      · rintro ⟨h0, hrest⟩ i hi
        cases i with
        | zero => simpa using h0
        | succ j =>
          simp only [List.getD_cons_succ]
          exact hrest j (by simpa using hi)
      · intro hall
        refine ⟨by simpa using hall 0 (by simp), fun j hj => ?_⟩
        have := hall (j + 1) (by simpa using hj)
        simpa using this

/-! ## Claim C2 (IsSubordinate) -/

/-- Claim C2, counterexample: the claim states that `IsSubordinate` returns
false when `other` is empty (zero RDNs), but the code's `off ≤ 0` guard
does not catch a shorter empty `other`, and the comparison loop is vacuous,
so a one-RDN DN is reported subordinate to the empty DN. -/
theorem claim_c2_counterexample :
    DN.IsSubordinate ⟨[⟨[⟨"dc", "org"⟩]⟩], false, false⟩ (some ⟨[], false, false⟩) = true := by
  decide

/-- Claim C2, amended: `IsSubordinate(dn, other)` returns false when
`other` is absent (nil) or has at least as many RDNs as `dn`; otherwise —
including the empty `other`, for which the condition is vacuous — it
returns true iff for every index `i` below `len(other)` the RDN
`dn.RDNs[len(dn)-len(other)+i]` equals `other.RDNs[i]` under RDN equality
with `dn`'s `CaseFold` flag. -/
theorem claim_c2_subordinate (dn : DN) (other : Option DN) :
    dn.IsSubordinate other = true ↔
      ∃ o, other = some o ∧ o.RDNs.length < dn.RDNs.length ∧
        ∀ i, i < o.RDNs.length →
          RelativeDN.Equal (o.RDNs.getD i ⟨[]⟩)
            (dn.RDNs.getD (dn.RDNs.length - o.RDNs.length + i) ⟨[]⟩) dn.CaseFold = true := by
  cases other with
  | none =>
    constructor
    · intro h; exact absurd h (by simp [DN.IsSubordinate])
    · rintro ⟨o, ho, _⟩; exact absurd ho (by simp)
  | some o =>
    show (if dn.RDNs.length ≤ o.RDNs.length then false
      else (o.RDNs.zip (dn.RDNs.drop (dn.RDNs.length - o.RDNs.length))).all fun p =>
        RelativeDN.Equal p.1 p.2 dn.CaseFold) = true ↔ _
    by_cases hle : dn.RDNs.length ≤ o.RDNs.length
    · rw [if_pos hle]
      constructor
      · intro h; exact absurd h (by simp)
      · rintro ⟨o', ho', hlt, _⟩
        have heq : o = o' := by injection ho'
        subst heq
        omega
    · rw [if_neg hle]
      have hlen : o.RDNs.length ≤ (dn.RDNs.drop (dn.RDNs.length - o.RDNs.length)).length := by
        rw [List.length_drop]; omega
      rw [zip_all_getD_iff (fun p => RelativeDN.Equal p.1 p.2 dn.CaseFold) _ _ hlen]
      constructor
      · intro h
        refine ⟨o, rfl, by omega, fun i hi => ?_⟩
        have h2 := h i hi
        have h3 : RelativeDN.Equal (o.RDNs.getD i ⟨[]⟩)
            ((dn.RDNs.drop (dn.RDNs.length - o.RDNs.length)).getD i ⟨[]⟩) dn.CaseFold = true := h2
        rwa [getD_drop] at h3
      · rintro ⟨o', ho', _, hall⟩
        have heq : o = o' := by injection ho'
        subst heq
        intro i hi
        show RelativeDN.Equal (o.RDNs.getD i ⟨[]⟩)
          ((dn.RDNs.drop (dn.RDNs.length - o.RDNs.length)).getD i ⟨[]⟩) dn.CaseFold = true
        rw [getD_drop]
        exact hall i hi

/-- Claim C2, witness: the amended characterization applied to a concrete
subordinate pair. -/
theorem claim_c2_witness :
    ∃ o, (some ⟨[⟨[⟨"dc", "org"⟩]⟩], false, false⟩ : Option DN) = some o ∧
      o.RDNs.length <
        (DN.mk [⟨[⟨"cn", "x"⟩]⟩, ⟨[⟨"dc", "org"⟩]⟩] false false).RDNs.length ∧
      ∀ i, i < o.RDNs.length →
        RelativeDN.Equal (o.RDNs.getD i ⟨[]⟩)
          ((DN.mk [⟨[⟨"cn", "x"⟩]⟩, ⟨[⟨"dc", "org"⟩]⟩] false false).RDNs.getD
            ((DN.mk [⟨[⟨"cn", "x"⟩]⟩, ⟨[⟨"dc", "org"⟩]⟩] false false).RDNs.length -
              o.RDNs.length + i) ⟨[]⟩) false = true :=
  (claim_c2_subordinate ⟨[⟨[⟨"cn", "x"⟩]⟩, ⟨[⟨"dc", "org"⟩]⟩], false, false⟩
    (some ⟨[⟨[⟨"dc", "org"⟩]⟩], false, false⟩)).mp (by decide)

/-! ## Claim C3 (sorting happens at stringification, not construction) -/

/-- Claim C3, counterexample: parsing `ou=b+cn=a` stores the AVAs in
textual order, not sorted by type — the ordering invariant is not
established at construction time. -/
theorem claim_c3_counterexample :
    (New "ou=b+cn=a" []).map (fun d => d.RDNs.map fun r => sortedByTypeB r.Attributes) =
      some [false] := by decide

/-- Claim C3, amended: the AVAs of a parsed RDN stay in their textual
order; the sort by type happens inside `RelativeDN.String`, which renders
a sorted AVA list (a fixpoint of the sort), so only the stringified form
satisfies the ordering invariant. -/
theorem claim_c3_sort_at_render (r : RelativeDN) :
    sortedByTypeB (sortAVAs r.Attributes) = true ∧
    RelativeDN.toString r = RelativeDN.toString ⟨sortAVAs r.Attributes⟩ := by
  refine ⟨sortAVAs_sorted _, ?_⟩
  show (⟨interL ['+'] ((sortAVAs r.Attributes).map segChars)⟩ : String) =
    ⟨interL ['+'] ((sortAVAs (sortAVAs r.Attributes)).map segChars)⟩
  rw [sortAVAs_idem]

/-! ## Claim C4 (stringification) -/

/-- Claim C4, counterexample: the rendering described by the claim is not
what `String()` produces for every DN: with `StringFold` set the entire
output is lowercased afterwards, so the escaped value is not reproduced
verbatim. -/
theorem claim_c4_counterexample :
    DN.toString ⟨[⟨[⟨"cn", "A"⟩]⟩], false, true⟩ ≠
      stringifySpec ⟨[⟨[⟨"cn", "A"⟩]⟩], false, true⟩ := by decide

/-- Claim C4, amended: for every DN whose `StringFold` flag is unset (the
parser default), `String()` renders each RDN as `type=escapedValue`
segments sorted by type and joined by `+`, with types lowercased and
values escaped, and joins the RDN segments with `,` leaf first; the
claim's concrete example holds. -/
theorem claim_c4_stringify (dn : DN) :
    (dn.StringFold = false → DN.toString dn = stringifySpec dn) ∧
    (New "OU=Sales+CN=J. Smith,DC=example,DC=net" []).map DN.toString =
      some "cn=J. Smith+ou=Sales,dc=example,dc=net" := by
  constructor
  · intro h
    simp only [DN.toString, h, Bool.false_eq_true, if_false]
    rfl
  · rfl

/-- Claim C4, witness: the general rendering equation applied to a
concrete unfolded DN. -/
theorem claim_c4_witness :
    DN.toString ⟨[⟨[⟨"OU", "Sales"⟩, ⟨"CN", "J. Smith"⟩]⟩], false, false⟩ =
      stringifySpec ⟨[⟨[⟨"OU", "Sales"⟩, ⟨"CN", "J. Smith"⟩]⟩], false, false⟩ :=
  (claim_c4_stringify ⟨[⟨[⟨"OU", "Sales"⟩, ⟨"CN", "J. Smith"⟩]⟩], false, false⟩).1 rfl

/-! ## Claim C5 (Strip) -/

/-- Claim C5: when `IsSubordinate(dn, base)` holds, `Strip` returns no
error and removes exactly the trailing `len(base)` RDNs (the kept RDNs are
the prefix of `dn` whose length is `len(dn) - len(base)`, flags
untouched); otherwise it returns the not-subordinate error and leaves the
receiver exactly as it was. -/
theorem claim_c5_strip (dn base : DN) :
    (dn.IsSubordinate (some base) = true →
      (dn.Strip base).1 = none ∧
      (dn.Strip base).2.RDNs ++ dn.RDNs.drop (dn.RDNs.length - base.RDNs.length) = dn.RDNs ∧
      (dn.Strip base).2.RDNs.length + base.RDNs.length = dn.RDNs.length ∧
      (dn.Strip base).2.CaseFold = dn.CaseFold ∧
      (dn.Strip base).2.StringFold = dn.StringFold) ∧
    (dn.IsSubordinate (some base) = false →
      (dn.Strip base).1 = some ErrDNNotSubordinate ∧ (dn.Strip base).2 = dn) := by
  constructor
  · intro h
    have hlen := isSub_length h
    have hstrip : dn.Strip base =
        (none, { dn with RDNs := dn.RDNs.take (dn.RDNs.length - base.RDNs.length) }) := by
      simp only [DN.Strip, h, if_true]
    rw [hstrip]
    refine ⟨rfl, List.take_append_drop _ _, ?_, rfl, rfl⟩
    show (dn.RDNs.take (dn.RDNs.length - base.RDNs.length)).length + base.RDNs.length =
      dn.RDNs.length
    rw [List.length_take]
    omega
  · intro h
    have hstrip : dn.Strip base = (some ErrDNNotSubordinate, dn) := by
      simp only [DN.Strip, h, Bool.false_eq_true, if_false]
    rw [hstrip]
    exact ⟨rfl, rfl⟩

/-- Claim C5, witness: both branches at concrete inputs — a subordinate
pair is stripped, a non-subordinate pair is left untouched with the
error. -/
theorem claim_c5_witness :
    ((DN.Strip ⟨[⟨[⟨"cn", "a"⟩]⟩, ⟨[⟨"dc", "org"⟩]⟩], false, false⟩
        ⟨[⟨[⟨"dc", "org"⟩]⟩], false, false⟩).1 = none ∧
      (DN.Strip ⟨[⟨[⟨"cn", "a"⟩]⟩, ⟨[⟨"dc", "org"⟩]⟩], false, false⟩
        ⟨[⟨[⟨"dc", "org"⟩]⟩], false, false⟩).2.RDNs ++
        (DN.mk [⟨[⟨"cn", "a"⟩]⟩, ⟨[⟨"dc", "org"⟩]⟩] false false).RDNs.drop
          ((DN.mk [⟨[⟨"cn", "a"⟩]⟩, ⟨[⟨"dc", "org"⟩]⟩] false false).RDNs.length -
            (DN.mk [⟨[⟨"dc", "org"⟩]⟩] false false).RDNs.length) =
        (DN.mk [⟨[⟨"cn", "a"⟩]⟩, ⟨[⟨"dc", "org"⟩]⟩] false false).RDNs ∧
      (DN.Strip ⟨[⟨[⟨"cn", "a"⟩]⟩, ⟨[⟨"dc", "org"⟩]⟩], false, false⟩
        ⟨[⟨[⟨"dc", "org"⟩]⟩], false, false⟩).2.RDNs.length +
        (DN.mk [⟨[⟨"dc", "org"⟩]⟩] false false).RDNs.length =
        (DN.mk [⟨[⟨"cn", "a"⟩]⟩, ⟨[⟨"dc", "org"⟩]⟩] false false).RDNs.length ∧
      (DN.Strip ⟨[⟨[⟨"cn", "a"⟩]⟩, ⟨[⟨"dc", "org"⟩]⟩], false, false⟩
        ⟨[⟨[⟨"dc", "org"⟩]⟩], false, false⟩).2.CaseFold = false ∧
      (DN.Strip ⟨[⟨[⟨"cn", "a"⟩]⟩, ⟨[⟨"dc", "org"⟩]⟩], false, false⟩
        ⟨[⟨[⟨"dc", "org"⟩]⟩], false, false⟩).2.StringFold = false) ∧
    ((DN.Strip ⟨[⟨[⟨"cn", "a"⟩]⟩], false, false⟩
        ⟨[⟨[⟨"dc", "com"⟩]⟩], false, false⟩).1 = some ErrDNNotSubordinate ∧
      (DN.Strip ⟨[⟨[⟨"cn", "a"⟩]⟩], false, false⟩
        ⟨[⟨[⟨"dc", "com"⟩]⟩], false, false⟩).2 = ⟨[⟨[⟨"cn", "a"⟩]⟩], false, false⟩) :=
  ⟨(claim_c5_strip ⟨[⟨[⟨"cn", "a"⟩]⟩, ⟨[⟨"dc", "org"⟩]⟩], false, false⟩
      ⟨[⟨[⟨"dc", "org"⟩]⟩], false, false⟩).1 (by decide),
   (claim_c5_strip ⟨[⟨[⟨"cn", "a"⟩]⟩], false, false⟩
      ⟨[⟨[⟨"dc", "com"⟩]⟩], false, false⟩).2 (by decide)⟩

/-! ## Claim C7 (ownership of RDNs after derivations) -/

/-- Claim C7, counterexample: `Append` copies the RDN pointers of the
argument into the receiver, so afterwards the cell index 1 is reachable
from both the appended DN and the argument — they share a mutable RDN
object, contrary to the claim. -/
theorem claim_c7_counterexample :
    sharesRDN (appendH ⟨[0]⟩ ⟨[1]⟩) ⟨[1]⟩ = true := by decide

/-- Claim C7, amended: `Clone` and `Parent` allocate fresh RDN cells and
share nothing with the source, but `Append` and `Move` copy the
argument's RDN pointers into the receiver, which afterwards shares every
RDN cell of the (non-empty) argument. -/
theorem claim_c7_ownership (h : List RelativeDN) (dn other : DNRef) :
    (validRef h dn = true → sharesRDN (cloneH h dn).2 dn = false) ∧
    (validRef h dn = true → sharesRDN (parentH h dn).2 dn = false) ∧
    (other.RDNs ≠ [] → sharesRDN (appendH dn other) other = true) ∧
    (other.RDNs ≠ [] → sharesRDN (moveH dn other) other = true) := by
  have hclone : ∀ i ∈ ((cloneH h dn).2).RDNs, h.length ≤ i := by
    intro i hi
    simp only [cloneH, List.mem_map, List.mem_range] at hi
    obtain ⟨k, _, rfl⟩ := hi
    omega
  have hnoshare : validRef h dn = true → sharesRDN (cloneH h dn).2 dn = false := by
    intro hv
    rw [Bool.eq_false_iff]
    intro hc
    obtain ⟨i, hmem, hcont⟩ := List.any_eq_true.mp hc
    have hge := hclone i hmem
    have hmemdn : i ∈ dn.RDNs := List.elem_iff.mp hcont
    have := List.all_eq_true.mp hv i hmemdn
    have hlt : i < h.length := by exact_mod_cast of_decide_eq_true this
    omega
  refine ⟨hnoshare, ?_, ?_, ?_⟩
  · intro hv
    rw [Bool.eq_false_iff]
    intro hc
    obtain ⟨i, hmem, hcont⟩ := List.any_eq_true.mp hc
    have hmem2 : i ∈ ((cloneH h dn).2).RDNs := by
      have : ((parentH h dn).2).RDNs = ((cloneH h dn).2).RDNs.drop 1 := rfl
      exact List.drop_subset 1 _ (this ▸ hmem)
    have hge := hclone i hmem2
    have hmemdn : i ∈ dn.RDNs := List.elem_iff.mp hcont
    have := List.all_eq_true.mp hv i hmemdn
    have hlt : i < h.length := by exact_mod_cast of_decide_eq_true this
    omega
  · intro hne
    apply List.any_eq_true.mpr
    cases hx : other.RDNs with
    | nil => exact absurd hx hne
    | cons x xs =>
      refine ⟨x, ?_, ?_⟩
      · show x ∈ dn.RDNs ++ other.RDNs
        rw [hx]
        exact List.mem_append_right _ (by simp)
      · exact List.elem_iff.mpr (by simp)
  · intro hne
    apply List.any_eq_true.mpr
    cases hx : other.RDNs with
    | nil => exact absurd hx hne
    | cons x xs =>
      refine ⟨x, ?_, ?_⟩
      · show x ∈ dn.RDNs.take 1 ++ other.RDNs
        rw [hx]
        exact List.mem_append_right _ (by simp)
      · exact List.elem_iff.mpr (by simp)

/-- Claim C7, witness: the ownership facts evaluated on a concrete
two-cell heap. -/
theorem claim_c7_witness :
    sharesRDN (cloneH [⟨[⟨"cn", "a"⟩]⟩, ⟨[⟨"dc", "b"⟩]⟩] ⟨[0]⟩).2 ⟨[0]⟩ = false ∧
    sharesRDN (parentH [⟨[⟨"cn", "a"⟩]⟩, ⟨[⟨"dc", "b"⟩]⟩] ⟨[0]⟩).2 ⟨[0]⟩ = false ∧
    sharesRDN (appendH ⟨[0]⟩ ⟨[1]⟩) ⟨[1]⟩ = true ∧
    sharesRDN (moveH ⟨[0]⟩ ⟨[1]⟩) ⟨[1]⟩ = true :=
  ⟨(claim_c7_ownership [⟨[⟨"cn", "a"⟩]⟩, ⟨[⟨"dc", "b"⟩]⟩] ⟨[0]⟩ ⟨[1]⟩).1 (by decide),
   (claim_c7_ownership [⟨[⟨"cn", "a"⟩]⟩, ⟨[⟨"dc", "b"⟩]⟩] ⟨[0]⟩ ⟨[1]⟩).2.1 (by decide),
   (claim_c7_ownership [⟨[⟨"cn", "a"⟩]⟩, ⟨[⟨"dc", "b"⟩]⟩] ⟨[0]⟩ ⟨[1]⟩).2.2.1 (by decide),
   (claim_c7_ownership [⟨[⟨"cn", "a"⟩]⟩, ⟨[⟨"dc", "b"⟩]⟩] ⟨[0]⟩ ⟨[1]⟩).2.2.2 (by decide)⟩

/-! ## Claim C8 (RelativeDN.Less) -/

theorem lessLoop_iff (fold : Bool) :
    ∀ (as bs : List AttributeTypeAndValue),
      lessLoop as bs fold = true ↔
        ∃ p ∈ as.zip bs,
          (ltL (lowerL p.1.Type'.data) (lowerL p.2.Type'.data) = true ∨
           (if fold then ltL (lowerL p.1.Value.data) (lowerL p.2.Value.data)
            else ltL p.1.Value.data p.2.Value.data) = true) := by
  intro as
  induction as with
  | nil =>
    intro bs
    constructor
    · intro h
      cases bs <;> simp [lessLoop] at h
    · rintro ⟨p, hp, _⟩
      simp [List.zip] at hp
  | cons a as ih =>
    intro bs
    cases bs with
    | nil =>
      constructor
      · intro h; simp [lessLoop] at h
      · rintro ⟨p, hp, _⟩; simp [List.zip] at hp
    | cons b bs =>
      show (if ltL (lowerL a.Type'.data) (lowerL b.Type'.data) then true
        else if (if fold then ltL (lowerL a.Value.data) (lowerL b.Value.data)
                 else ltL a.Value.data b.Value.data) then true
        else lessLoop as bs fold) = true ↔ _
      by_cases h1 : ltL (lowerL a.Type'.data) (lowerL b.Type'.data) = true
      · rw [if_pos h1]
        exact iff_of_true rfl ⟨(a, b), by simp, Or.inl h1⟩
      · rw [if_neg h1]
        by_cases h2 : (if fold then ltL (lowerL a.Value.data) (lowerL b.Value.data)
            else ltL a.Value.data b.Value.data) = true
        · rw [if_pos h2]
          exact iff_of_true rfl ⟨(a, b), by simp, Or.inr h2⟩
        · rw [if_neg h2]
          rw [ih bs]
          constructor
          · rintro ⟨p, hp, hcond⟩
            exact ⟨p, by simp [hp], hcond⟩
          · rintro ⟨p, hp, hcond⟩
            simp only [List.zip_cons_cons, List.mem_cons] at hp
            rcases hp with rfl | hp
            · rcases hcond with hc | hc
              · exact absurd hc h1
              · exact absurd hc h2
            · exact ⟨p, hp, hcond⟩

/-- Claim C8, counterexample: the claim says `rdnLess` returns false at
the first position where the left pair is strictly greater; the code
instead falls through to the value comparison and returns true — here the
left type `b` is strictly greater than `a`, yet the smaller value makes
`Less` return true, where the claim's pairwise comparison returns
false. -/
theorem claim_c8_counterexample :
    RelativeDN.Less ⟨[⟨"b", "1"⟩]⟩ ⟨[⟨"a", "2"⟩]⟩ false = true ∧
    rdnLessSpec ⟨[⟨"b", "1"⟩]⟩ ⟨[⟨"a", "2"⟩]⟩ false = false := by decide

/-- Claim C8, amended: with different AVA counts `Less` is true exactly
when the left RDN has fewer AVAs; with equal counts it is true iff at SOME
position the lowercased type of the left AVA compares strictly smaller or
its (optionally folded) value compares strictly smaller — the scan never
returns false early, so a strictly greater pair at an earlier position
does not decide the result. -/
theorem claim_c8_less (r o : RelativeDN) (fold : Bool) :
    (r.Attributes.length ≠ o.Attributes.length →
      (RelativeDN.Less r o fold = true ↔ r.Attributes.length < o.Attributes.length)) ∧
    (r.Attributes.length = o.Attributes.length →
      (RelativeDN.Less r o fold = true ↔
        ∃ p ∈ r.Attributes.zip o.Attributes,
          (ltL (lowerL p.1.Type'.data) (lowerL p.2.Type'.data) = true ∨
           (if fold then ltL (lowerL p.1.Value.data) (lowerL p.2.Value.data)
            else ltL p.1.Value.data p.2.Value.data) = true))) := by
  constructor
  · intro hne
    show (if r.Attributes.length ≠ o.Attributes.length then
      decide (r.Attributes.length < o.Attributes.length)
      else lessLoop r.Attributes o.Attributes fold) = true ↔ _
    rw [if_pos hne]
    exact decide_eq_true_iff
  · intro heq
    show (if r.Attributes.length ≠ o.Attributes.length then
      decide (r.Attributes.length < o.Attributes.length)
      else lessLoop r.Attributes o.Attributes fold) = true ↔ _
    rw [if_neg (by omega)]
    exact lessLoop_iff fold r.Attributes o.Attributes

/-- Claim C8, witness: the equal-count characterization at a concrete pair
where only the second position fires. -/
theorem claim_c8_witness :
    RelativeDN.Less ⟨[⟨"a", "1"⟩, ⟨"b", "1"⟩]⟩ ⟨[⟨"a", "1"⟩, ⟨"b", "2"⟩]⟩ false = true ↔
      ∃ p ∈ (RelativeDN.mk [⟨"a", "1"⟩, ⟨"b", "1"⟩]).Attributes.zip
          (RelativeDN.mk [⟨"a", "1"⟩, ⟨"b", "2"⟩]).Attributes,
        (ltL (lowerL p.1.Type'.data) (lowerL p.2.Type'.data) = true ∨
         (if false then ltL (lowerL p.1.Value.data) (lowerL p.2.Value.data)
          else ltL p.1.Value.data p.2.Value.data) = true) :=
  (claim_c8_less ⟨[⟨"a", "1"⟩, ⟨"b", "1"⟩]⟩ ⟨[⟨"a", "1"⟩, ⟨"b", "2"⟩]⟩ false).2 (by decide)

/-! ## Claim C10 (Pretty mutates its receiver) -/

/-- Claim C10: `Pretty` strips the base from the receiver itself: after
`dn.Pretty(base, sep, conv)` with `dn` subordinate to `base`, the
receiver's RDN sequence is the stripped prefix — permanently shortened
whenever the base is non-empty — and is not restored before returning. -/
theorem claim_c10_pretty_mutates (dn base : DN) (sep : String) (conv : Option (String → String)) :
    dn.IsSubordinate (some base) = true →
      (dn.Pretty base sep conv).2 =
        { dn with RDNs := dn.RDNs.take (dn.RDNs.length - base.RDNs.length) } ∧
      (base.RDNs ≠ [] → (dn.Pretty base sep conv).2.RDNs.length < dn.RDNs.length) := by
  intro h
  have hlen := isSub_length h
  have hstrip : dn.Strip base =
      (none, { dn with RDNs := dn.RDNs.take (dn.RDNs.length - base.RDNs.length) }) := by
    simp only [DN.Strip, h, if_true]
  have hpretty : (dn.Pretty base sep conv).2 =
      { dn with RDNs := dn.RDNs.take (dn.RDNs.length - base.RDNs.length) } := by
    show (dn.Strip base).2 = _
    rw [hstrip]
  refine ⟨hpretty, ?_⟩
  intro hb
  rw [hpretty]
  show (dn.RDNs.take (dn.RDNs.length - base.RDNs.length)).length < dn.RDNs.length
  rw [List.length_take]
  have : 0 < base.RDNs.length := List.length_pos.mpr hb
  omega

/-- Claim C10, witness: the spec's Pretty example input, whose receiver
ends up stripped to its leaf three RDNs. -/
theorem claim_c10_witness :
    (DN.Pretty ⟨[⟨[⟨"cn", "group"⟩]⟩, ⟨[⟨"ou", "some"⟩]⟩, ⟨[⟨"ou", "apps"⟩]⟩,
        ⟨[⟨"dc", "example"⟩]⟩, ⟨[⟨"dc", "org"⟩]⟩], false, false⟩
      ⟨[⟨[⟨"dc", "example"⟩]⟩, ⟨[⟨"dc", "org"⟩]⟩], false, false⟩ "" none).2 =
      { DN.mk [⟨[⟨"cn", "group"⟩]⟩, ⟨[⟨"ou", "some"⟩]⟩, ⟨[⟨"ou", "apps"⟩]⟩,
          ⟨[⟨"dc", "example"⟩]⟩, ⟨[⟨"dc", "org"⟩]⟩] false false with
        RDNs := (DN.mk [⟨[⟨"cn", "group"⟩]⟩, ⟨[⟨"ou", "some"⟩]⟩, ⟨[⟨"ou", "apps"⟩]⟩,
            ⟨[⟨"dc", "example"⟩]⟩, ⟨[⟨"dc", "org"⟩]⟩] false false).RDNs.take
          ((DN.mk [⟨[⟨"cn", "group"⟩]⟩, ⟨[⟨"ou", "some"⟩]⟩, ⟨[⟨"ou", "apps"⟩]⟩,
              ⟨[⟨"dc", "example"⟩]⟩, ⟨[⟨"dc", "org"⟩]⟩] false false).RDNs.length -
            (DN.mk [⟨[⟨"dc", "example"⟩]⟩, ⟨[⟨"dc", "org"⟩]⟩] false false).RDNs.length) } ∧
    ((DN.mk [⟨[⟨"dc", "example"⟩]⟩, ⟨[⟨"dc", "org"⟩]⟩] false false).RDNs ≠ [] →
      (DN.Pretty ⟨[⟨[⟨"cn", "group"⟩]⟩, ⟨[⟨"ou", "some"⟩]⟩, ⟨[⟨"ou", "apps"⟩]⟩,
          ⟨[⟨"dc", "example"⟩]⟩, ⟨[⟨"dc", "org"⟩]⟩], false, false⟩
        ⟨[⟨[⟨"dc", "example"⟩]⟩, ⟨[⟨"dc", "org"⟩]⟩], false, false⟩ "" none).2.RDNs.length <
        (DN.mk [⟨[⟨"cn", "group"⟩]⟩, ⟨[⟨"ou", "some"⟩]⟩, ⟨[⟨"ou", "apps"⟩]⟩,
            ⟨[⟨"dc", "example"⟩]⟩, ⟨[⟨"dc", "org"⟩]⟩] false false).RDNs.length) :=
  claim_c10_pretty_mutates
    ⟨[⟨[⟨"cn", "group"⟩]⟩, ⟨[⟨"ou", "some"⟩]⟩, ⟨[⟨"ou", "apps"⟩]⟩,
        ⟨[⟨"dc", "example"⟩]⟩, ⟨[⟨"dc", "org"⟩]⟩], false, false⟩
    ⟨[⟨[⟨"dc", "example"⟩]⟩, ⟨[⟨"dc", "org"⟩]⟩], false, false⟩ "" none (by decide)

/-! ## Character class lemmas -/

theorem toNat_ofNat_small {n : Nat} (h : n < 256) : (Char.ofNat n).toNat = n := by
  have hv : Nat.isValidChar n := by left; omega
  simp [Char.ofNat, hv]
  rfl

theorem char_eq_iff_toNat {d : Char} (c : Char) : c = d ↔ c.toNat = d.toNat :=
  ⟨fun h => congrArg Char.toNat h, char_toNat_inj⟩

theorem lowerChar_toNat (c : Char) :
    (lowerChar c).toNat = if 65 ≤ c.toNat ∧ c.toNat ≤ 90 then c.toNat + 32 else c.toNat := by
  unfold lowerChar
  by_cases h : 65 ≤ c.toNat ∧ c.toNat ≤ 90
  · rw [if_pos h, if_pos h, toNat_ofNat_small (by omega)]
  · rw [if_neg h, if_neg h]

theorem lowerChar_eq_self {c : Char} (h : ¬(65 ≤ c.toNat ∧ c.toNat ≤ 90)) :
    lowerChar c = c := by
  unfold lowerChar
  rw [if_neg h]

theorem lowerChar_idem (c : Char) : lowerChar (lowerChar c) = lowerChar c := by
  apply char_toNat_inj
  rw [lowerChar_toNat, lowerChar_toNat]
  split_ifs <;> omega

theorem lowerL_idem (l : List Char) : lowerL (lowerL l) = lowerL l := by
  induction l with
  | nil => rfl
  | cons c cs ih =>
    show lowerChar (lowerChar c) :: lowerL (lowerL cs) = lowerChar c :: lowerL cs
    rw [lowerChar_idem, ih]

theorem lowerL_append (x y : List Char) : lowerL (x ++ y) = lowerL x ++ lowerL y :=
  List.map_append lowerChar x y

theorem isSpecialChar_iff (c : Char) :
    isSpecialChar c = true ↔
      (c.toNat = 44 ∨ c.toNat = 43 ∨ c.toNat = 34 ∨ c.toNat = 92 ∨ c.toNat = 60 ∨
       c.toNat = 62 ∨ c.toNat = 59 ∨ c.toNat = 35 ∨ c.toNat = 61) := by
  unfold isSpecialChar
  simp only [Bool.or_eq_true, beq_iff_eq, char_eq_iff_toNat,
    show (',' : Char).toNat = 44 from rfl, show ('+' : Char).toNat = 43 from rfl,
    show ('"' : Char).toNat = 34 from rfl, show ('\\' : Char).toNat = 92 from rfl,
    show ('<' : Char).toNat = 60 from rfl, show ('>' : Char).toNat = 62 from rfl,
    show (';' : Char).toNat = 59 from rfl, show ('#' : Char).toNat = 35 from rfl,
    show ('=' : Char).toNat = 61 from rfl]
  omega

theorem isSpecialChar_lower (c : Char) : isSpecialChar (lowerChar c) = isSpecialChar c := by
  rw [Bool.eq_iff_iff, isSpecialChar_iff, isSpecialChar_iff, lowerChar_toNat]
  split_ifs <;> omega

theorem typeChar_iff (c : Char) :
    typeChar c = true ↔
      (c.toNat = 45 ∨ c.toNat = 46 ∨ (48 ≤ c.toNat ∧ c.toNat ≤ 57) ∨
       (65 ≤ c.toNat ∧ c.toNat ≤ 90) ∨ (97 ≤ c.toNat ∧ c.toNat ≤ 122)) := by
  unfold typeChar isAlphaC isDigitC
  simp only [Bool.or_eq_true, Bool.and_eq_true_iff, decide_eq_true_eq, beq_iff_eq,
    char_eq_iff_toNat, show ('-' : Char).toNat = 45 from rfl,
    show ('.' : Char).toNat = 46 from rfl]
  omega

theorem typeChar_lower (c : Char) : typeChar (lowerChar c) = typeChar c := by
  rw [Bool.eq_iff_iff, typeChar_iff, typeChar_iff, lowerChar_toNat]
  split_ifs <;> omega

theorem typeChar_not_special {c : Char} (h : typeChar c = true) : isSpecialChar c = false := by
  rw [typeChar_iff] at h
  rw [Bool.eq_false_iff, Ne, isSpecialChar_iff]
  omega

theorem isAlphaC_lower (c : Char) : isAlphaC (lowerChar c) = isAlphaC c := by
  unfold isAlphaC
  rw [Bool.eq_iff_iff]
  simp only [Bool.or_eq_true, Bool.and_eq_true_iff, decide_eq_true_eq]
  rw [lowerChar_toNat]
  split_ifs <;> omega

theorem isDigitC_lower (c : Char) : isDigitC (lowerChar c) = isDigitC c := by
  unfold isDigitC
  rw [Bool.eq_iff_iff]
  simp only [Bool.and_eq_true_iff, decide_eq_true_eq]
  rw [lowerChar_toNat]
  split_ifs <;> omega

theorem hexVal_hexDigitChar {n : Nat} (h : n < 16) : hexVal (hexDigitChar n) = some n := by
  unfold hexDigitChar hexVal
  by_cases h10 : n < 10
  · rw [if_pos h10]
    rw [if_pos]
    · rw [toNat_ofNat_small (by omega)]
      congr 1
      omega
    · rw [toNat_ofNat_small (by omega)]
      omega
  · rw [if_neg h10]
    rw [if_neg, if_pos]
    · rw [toNat_ofNat_small (by omega)]
      congr 1
      omega
    · rw [toNat_ofNat_small (by omega)]
      omega
    · rw [toNat_ofNat_small (by omega)]
      omega

theorem lowerChar_escapeChar (c : Char) :
    lowerL (escapeChar c) = escapeChar (lowerChar c) := by
  by_cases hsp : isSpecialChar c = true
  · have hnotup : ¬(65 ≤ c.toNat ∧ c.toNat ≤ 90) := by
      rw [isSpecialChar_iff] at hsp
      omega
    have hc : lowerChar c = c := lowerChar_eq_self hnotup
    rw [hc]
    unfold escapeChar
    rw [if_pos hsp]
    show [lowerChar '\\', lowerChar c] = ['\\', c]
    rw [hc, lowerChar_eq_self (by decide)]
  · by_cases hct : c.toNat < 32
    · have hc : lowerChar c = c := lowerChar_eq_self (by omega)
      rw [hc]
      unfold escapeChar
      rw [if_neg hsp, if_pos hct]
      show [lowerChar '\\', lowerChar (hexDigitChar (c.toNat / 16)),
        lowerChar (hexDigitChar (c.toNat % 16))] = _
      have hd : ∀ m : Nat, m < 16 → lowerChar (hexDigitChar m) = hexDigitChar m := by
        intro m hm
        apply lowerChar_eq_self
        unfold hexDigitChar
        by_cases hm10 : m < 10
        · rw [if_pos hm10, toNat_ofNat_small (by omega)]
          omega
        · rw [if_neg hm10, toNat_ofNat_small (by omega)]
          omega
      rw [lowerChar_eq_self (by decide), hd _ (by omega), hd _ (by omega)]
    · unfold escapeChar
      rw [if_neg hsp, if_neg hct]
      rw [if_neg, if_neg]
      · rfl
      · rw [lowerChar_toNat]
        split_ifs <;> omega
      · rw [isSpecialChar_lower]
        exact hsp

theorem lowerL_escL (v : List Char) : lowerL (escL v) = escL (lowerL v) := by
  induction v with
  | nil => rfl
  | cons c cs ih =>
    show lowerL (escapeChar c ++ escL cs) = escapeChar (lowerChar c) ++ escL (lowerL cs)
    rw [lowerL_append, ih, lowerChar_escapeChar]

/-! ## Attribute type token lemmas -/

theorem typeChar_of_alpha {c : Char} (h : isAlphaC c = true) : typeChar c = true := by
  unfold typeChar
  rw [h]
  rfl

theorem typeChar_of_digit {c : Char} (h : isDigitC c = true) : typeChar c = true := by
  unfold typeChar
  rw [h]
  simp

theorem descriptorOK_chars {t : List Char} (h : descriptorOK t = true) :
    ∀ c ∈ t, typeChar c = true := by
  cases t with
  | nil => intro c hc; simp at hc
  | cons a cs =>
    unfold descriptorOK at h
    obtain ⟨h1, h2⟩ := Bool.and_eq_true_iff.mp h
    intro c hc
    rcases List.mem_cons.mp hc with rfl | hc
    · exact typeChar_of_alpha h1
    · have := List.all_eq_true.mp h2 c hc
      unfold typeChar
      rcases bor_iff.mp this with h3 | h3
      · rcases bor_iff.mp h3 with h4 | h4
        · rw [h4]; rfl
        · rw [h4]; simp
      · rw [h3]; simp

theorem numOidAux_chars : ∀ (t : List Char) (b : Bool), numOidAux b t = true →
    ∀ c ∈ t, (isDigitC c || c == '.') = true := by
  intro t
  induction t with
  | nil => intro b _ c hc; simp at hc
  | cons a cs ih =>
    intro b h c hc
    unfold numOidAux at h
    by_cases hd : isDigitC a = true
    · rw [if_pos hd] at h
      rcases List.mem_cons.mp hc with rfl | hc
      · rw [hd]; rfl
      · exact ih true h c hc
    · rw [if_neg hd] at h
      by_cases hdot : a = '.' ∧ b = true
      · rw [if_pos hdot] at h
        rcases List.mem_cons.mp hc with rfl | hc
        · rw [hdot.1]; simp
        · exact ih false h c hc
      · rw [if_neg hdot] at h
        exact absurd h (by simp)

theorem numOid_chars {t : List Char} (h : numericOidOK t = true) :
    ∀ c ∈ t, (isDigitC c || c == '.') = true :=
  numOidAux_chars t false h

theorem storedOK_chars {t : List Char} (h : storedTypeOK t = true) :
    ∀ c ∈ t, typeChar c = true := by
  rcases bor_iff.mp h with h | h
  · exact descriptorOK_chars h
  · intro c hc
    rcases bor_iff.mp (numOid_chars h c hc) with h2 | h2
    · exact typeChar_of_digit h2
    · unfold typeChar
      rw [h2]
      simp

theorem storedOK_ne_nil {t : List Char} (h : storedTypeOK t = true) : t ≠ [] := by
  intro he
  subst he
  simp [storedTypeOK, descriptorOK, numericOidOK, numOidAux] at h

theorem storedOK_head {t : List Char} (h : storedTypeOK t = true) :
    ∃ c cs, t = c :: cs ∧ (isAlphaC c || isDigitC c) = true := by
  cases t with
  | nil => exact absurd rfl (storedOK_ne_nil h)
  | cons a cs =>
    refine ⟨a, cs, rfl, ?_⟩
    rcases bor_iff.mp h with h | h
    · unfold descriptorOK at h
      rw [(Bool.and_eq_true_iff.mp h).1]
      rfl
    · unfold numericOidOK numOidAux at h
      by_cases hd : isDigitC a = true
      · rw [hd]; simp
      · rw [if_neg hd, if_neg (by simp)] at h
        exact absurd h (by simp)

theorem lowerChar_beq_nonupper {d : Char} (h1 : ¬(65 ≤ d.toNat ∧ d.toNat ≤ 90))
    (h2 : ¬(97 ≤ d.toNat ∧ d.toNat ≤ 122)) (c : Char) :
    (lowerChar c == d) = (c == d) := by
  rw [Bool.eq_iff_iff]
  simp only [beq_iff_eq, char_eq_iff_toNat, lowerChar_toNat]
  split_ifs <;> omega

theorem descriptorOK_lower (t : List Char) : descriptorOK (lowerL t) = descriptorOK t := by
  cases t with
  | nil => rfl
  | cons a cs =>
    show (isAlphaC (lowerChar a) &&
        (lowerL cs).all fun d => isAlphaC d || isDigitC d || d == '-') =
      (isAlphaC a && cs.all fun d => isAlphaC d || isDigitC d || d == '-')
    rw [isAlphaC_lower]
    congr 1
    show (List.map lowerChar cs).all _ = _
    rw [List.all_map]
    congr 1
    funext c
    show (isAlphaC (lowerChar c) || isDigitC (lowerChar c) || (lowerChar c == '-')) = _
    rw [isAlphaC_lower, isDigitC_lower, lowerChar_beq_nonupper (by decide) (by decide)]

theorem lowerChar_eq_dot_iff (c : Char) : lowerChar c = '.' ↔ c = '.' := by
  rw [char_eq_iff_toNat, char_eq_iff_toNat, lowerChar_toNat,
    show ('.' : Char).toNat = 46 from rfl]
  split_ifs <;> omega

theorem numOidAux_lower : ∀ (t : List Char) (b : Bool),
    numOidAux b (lowerL t) = numOidAux b t := by
  intro t
  induction t with
  | nil => intro b; rfl
  | cons a cs ih =>
    intro b
    show numOidAux b (lowerChar a :: lowerL cs) = _
    unfold numOidAux
    rw [isDigitC_lower]
    by_cases hd : isDigitC a = true
    · rw [if_pos hd, if_pos hd, ih]
    · rw [if_neg hd, if_neg hd]
      by_cases hdot : a = '.' ∧ b = true
      · rw [if_pos ⟨lowerChar_eq_dot_iff a |>.mpr hdot.1, hdot.2⟩, if_pos hdot, ih]
      · rw [if_neg (fun hc => hdot ⟨lowerChar_eq_dot_iff a |>.mp hc.1, hc.2⟩), if_neg hdot]

theorem lowerL_eq_self {t : List Char} (h : ∀ c ∈ t, ¬(65 ≤ c.toNat ∧ c.toNat ≤ 90)) :
    lowerL t = t := by
  induction t with
  | nil => rfl
  | cons a cs ih =>
    show lowerChar a :: lowerL cs = a :: cs
    rw [lowerChar_eq_self (h a (by simp)), ih fun c hc => h c (by simp [hc])]

theorem dropSpaces_eq_self {l : List Char} (h : l.head? ≠ some ' ') :
    l.dropWhile (fun c => decide (c = ' ')) = l := by
  cases l with
  | nil => rfl
  | cons a cs =>
    rw [List.dropWhile_cons]
    rw [if_neg]
    simp only [List.head?] at h
    simp
    intro he
    exact h (by rw [he])

theorem skipSpaces_eq_self {l : List Char} (h : l.head? ≠ some ' ') : skipSpaces l = l :=
  dropSpaces_eq_self h

theorem trimL_eq_self {t : List Char} (h : ∀ c ∈ t, c ≠ ' ') : trimL t = t := by
  unfold trimL
  have h1 : t.dropWhile (fun c => decide (c = ' ')) = t := by
    apply dropSpaces_eq_self
    cases t with
    | nil => simp
    | cons a cs =>
      simp only [List.head?_cons, ne_eq, Option.some.injEq]
      exact h a (by simp)
  rw [h1]
  have h2 : t.reverse.dropWhile (fun c => decide (c = ' ')) = t.reverse := by
    apply dropSpaces_eq_self
    cases hrev : t.reverse with
    | nil => simp
    | cons a cs =>
      simp only [List.head?_cons, ne_eq, Option.some.injEq]
      intro ha
      exact h a (List.mem_reverse.mp (by rw [hrev]; exact List.mem_cons_self a cs)) ha
  rw [h2, List.reverse_reverse]

theorem takeWhile_append_all {p : Char → Bool} :
    ∀ (l : List Char), (∀ c ∈ l, p c = true) → ∀ (d : Char) (r : List Char), p d = false →
      ((l ++ d :: r).takeWhile p = l ∧ (l ++ d :: r).dropWhile p = d :: r) := by
  intro l
  induction l with
  | nil =>
    intro _ d r hd
    constructor
    · rw [List.nil_append, List.takeWhile_cons, if_neg (by simp [hd])]
    · rw [List.nil_append, List.dropWhile_cons, if_neg (by simp [hd])]
  | cons a cs ih =>
    intro hall d r hd
    have ha : p a = true := hall a (by simp)
    obtain ⟨ih1, ih2⟩ := ih (fun c hc => hall c (by simp [hc])) d r hd
    constructor
    · rw [List.cons_append, List.takeWhile_cons, if_pos ha, ih1]
    · rw [List.cons_append, List.dropWhile_cons, if_pos ha, ih2]

theorem typeChar_ne_space {c : Char} (h : typeChar c = true) : c ≠ ' ' := by
  rw [typeChar_iff] at h
  simp only [ne_eq, char_eq_iff_toNat, show (' ' : Char).toNat = 32 from rfl]
  omega

theorem typeChar_ne_eqsign {c : Char} (h : typeChar c = true) : c ≠ '=' := by
  rw [typeChar_iff] at h
  simp only [ne_eq, char_eq_iff_toNat, show ('=' : Char).toNat = 61 from rfl]
  omega

theorem storedOK_trim {t : List Char} (h : storedTypeOK t = true) : trimL t = t :=
  trimL_eq_self fun c hc => typeChar_ne_space (storedOK_chars h c hc)

theorem parseTypeTok_print {t : List Char} (h : storedTypeOK t = true) :
    parseTypeTok (lowerL t) = some (lowerL t) := by
  have hchars : ∀ c ∈ lowerL t, typeChar c = true := by
    intro c hc
    obtain ⟨d, hd, rfl⟩ := List.mem_map.mp hc
    rw [typeChar_lower]
    exact storedOK_chars h d hd
  have htrim : trimL (lowerL t) = lowerL t :=
    trimL_eq_self fun c hc => typeChar_ne_space (hchars c hc)
  unfold parseTypeTok
  rw [htrim]
  rcases bor_iff.mp h with hdesc | hnum
  · rw [if_pos (by rw [descriptorOK_lower]; exact hdesc)]
  · have hlt : lowerL t = t := by
      apply lowerL_eq_self
      intro c hc
      rcases bor_iff.mp (numOid_chars hnum c hc) with h2 | h2
      · unfold isDigitC at h2
        simp only [Bool.and_eq_true_iff, decide_eq_true_eq] at h2
        omega
      · have : c = '.' := by simpa using h2
        subst this
        decide
    rw [hlt]
    by_cases hdesc : descriptorOK t = true
    · rw [if_pos hdesc]
    · rw [if_neg hdesc]
      have hstrip : stripOid t = t := by
        unfold stripOid
        rw [if_neg]
        obtain ⟨c, cs, rfl, hhead⟩ := storedOK_head h
        have hdig : isDigitC c = true := by
          unfold numericOidOK numOidAux at hnum
          by_cases hd : isDigitC c = true
          · exact hd
          · rw [if_neg hd, if_neg (by simp)] at hnum
            exact absurd hnum (by simp)
        intro he
        have : lowerChar c = 'o' := by
          have h4 : (c :: cs).take 4 = c :: cs.take 3 := rfl
          rw [h4] at he
          have h5 := congrArg List.head? he
          simp only [lowerL, List.map_cons, List.head?_cons, Option.some.injEq] at h5
          exact h5
        have hc := congrArg Char.toNat this
        rw [lowerChar_toNat, show ('o' : Char).toNat = 111 from rfl] at hc
        unfold isDigitC at hdig
        simp only [Bool.and_eq_true_iff, decide_eq_true_eq] at hdig
        split_ifs at hc <;> omega
      rw [hstrip, if_pos hnum]

theorem parseTypeTok_sound {tok t : List Char} (h : parseTypeTok tok = some t) :
    storedTypeOK t = true := by
  unfold parseTypeTok at h
  by_cases hdesc : descriptorOK (trimL tok) = true
  · rw [if_pos hdesc] at h
    have : trimL tok = t := by injection h
    subst this
    unfold storedTypeOK
    rw [hdesc]
    rfl
  · rw [if_neg hdesc] at h
    by_cases hnum : numericOidOK (stripOid (trimL tok)) = true
    · rw [if_pos hnum] at h
      have : stripOid (trimL tok) = t := by injection h
      subst this
      unfold storedTypeOK
      rw [hnum]
      simp
    · rw [if_neg hnum] at h
      exact absurd h (by simp)

/-! ## Value scanning round-trip lemmas -/

theorem hexDigitChar_toNat {m : Nat} (h : m < 16) :
    (hexDigitChar m).toNat = if m < 10 then 48 + m else 87 + m := by
  unfold hexDigitChar
  split_ifs with h10
  · exact toNat_ofNat_small (by omega)
  · exact toNat_ofNat_small (by omega)

theorem hexDigitChar_not_reserved {m : Nat} (h : m < 16) :
    isReservedOrSpace (hexDigitChar m) = false := by
  have ht := hexDigitChar_toNat h
  rw [Bool.eq_false_iff]
  intro hcon
  unfold isReservedOrSpace at hcon
  rcases bor_iff.mp hcon with hs | hs
  · rw [isSpecialChar_iff] at hs
    split_ifs at ht <;> omega
  · have : (hexDigitChar m).toNat = 32 := by
      have he : hexDigitChar m = ' ' := by simpa using hs
      rw [he]
      rfl
    split_ifs at ht <;> omega

theorem not_special_ne {c : Char} (hsp : isSpecialChar c = false) :
    ¬(c = ',' ∨ c = '+') ∧ ¬(c = '\\') ∧
      ¬(c = '"' ∨ c = ';' ∨ c = '<' ∨ c = '>' ∨ c = '#' ∨ c = '=') := by
  have hn : ¬(isSpecialChar c = true) := by rw [hsp]; simp
  rw [isSpecialChar_iff] at hn
  simp only [char_eq_iff_toNat,
    show (',' : Char).toNat = 44 from rfl, show ('+' : Char).toNat = 43 from rfl,
    show ('\\' : Char).toNat = 92 from rfl, show ('"' : Char).toNat = 34 from rfl,
    show (';' : Char).toNat = 59 from rfl, show ('<' : Char).toNat = 60 from rfl,
    show ('>' : Char).toNat = 62 from rfl, show ('#' : Char).toNat = 35 from rfl,
    show ('=' : Char).toNat = 61 from rfl]
  omega

theorem scanValue_sep {rest : List Char}
    (h : rest = [] ∨ rest.head? = some ',' ∨ rest.head? = some '+') :
    scanValue rest = some ([], rest) := by
  rcases h with rfl | h | h
  · rfl
  · cases rest with
    | nil => simp at h
    | cons c cs =>
      have hc : c = ',' := by simpa using h
      subst hc
      unfold scanValue
      rw [if_pos (Or.inl rfl)]
  · cases rest with
    | nil => simp at h
    | cons c cs =>
      have hc : c = '+' := by simpa using h
      subst hc
      unfold scanValue
      rw [if_pos (Or.inr rfl)]

theorem scanValue_esc_step {c : Char} {t : List Char} {us : List VUnit} {rest : List Char}
    (h : scanValue t = some (us, rest)) :
    scanValue (escapeChar c ++ t) =
      some ((if isSpecialChar c || decide (c.toNat < 32) then VUnit.esc c
        else VUnit.raw c) :: us, rest) := by
  by_cases hsp : isSpecialChar c = true
  · have hesc : escapeChar c = ['\\', c] := by unfold escapeChar; rw [if_pos hsp]
    have hres : isReservedOrSpace c = true := by
      unfold isReservedOrSpace
      rw [hsp]
      rfl
    have hcond : (isSpecialChar c || decide (c.toNat < 32)) = true := by rw [hsp]; rfl
    rw [hesc, if_pos hcond]
    show scanValue ('\\' :: c :: t) = _
    unfold scanValue
    rw [if_neg (by decide), if_pos rfl]
    show (if isReservedOrSpace c = true then
        Option.map (fun p => (VUnit.esc c :: p.1, p.2)) (scanValue t)
      else
        match t with
        | [] => none
        | e2 :: cs3 =>
          match hexVal c, hexVal e2 with
          | some h1, some h2 =>
            Option.map (fun p => (VUnit.esc (Char.ofNat (16 * h1 + h2)) :: p.1, p.2))
              (scanValue cs3)
          | _, _ => none) = _
    rw [if_pos hres, h]
    rfl
  · by_cases hct : c.toNat < 32
    · have hesc : escapeChar c =
          ['\\', hexDigitChar (c.toNat / 16), hexDigitChar (c.toNat % 16)] := by
        unfold escapeChar
        rw [if_neg hsp, if_pos hct]
      have hcond : (isSpecialChar c || decide (c.toNat < 32)) = true := by
        simp [hct]
      rw [hesc, if_pos hcond]
      show scanValue ('\\' :: hexDigitChar (c.toNat / 16) :: hexDigitChar (c.toNat % 16)
        :: t) = _
      have hr1 : isReservedOrSpace (hexDigitChar (c.toNat / 16)) = false :=
        hexDigitChar_not_reserved (by omega)
      have h2 := hexVal_hexDigitChar (show c.toNat / 16 < 16 by omega)
      have h3 := hexVal_hexDigitChar (show c.toNat % 16 < 16 by omega)
      unfold scanValue
      rw [if_neg (by decide), if_pos rfl]
      show (if isReservedOrSpace (hexDigitChar (c.toNat / 16)) = true then
          Option.map (fun p => (VUnit.esc (hexDigitChar (c.toNat / 16)) :: p.1, p.2))
            (scanValue (hexDigitChar (c.toNat % 16) :: t))
        else
          match hexVal (hexDigitChar (c.toNat / 16)), hexVal (hexDigitChar (c.toNat % 16)) with
          | some h1, some h2 =>
            Option.map (fun p => (VUnit.esc (Char.ofNat (16 * h1 + h2)) :: p.1, p.2))
              (scanValue t)
          | _, _ => none) = _
      rw [if_neg (by rw [hr1]; simp), h2, h3]
      show Option.map
          (fun p => (VUnit.esc (Char.ofNat (16 * (c.toNat / 16) + c.toNat % 16)) :: p.1, p.2))
          (scanValue t) = _
      rw [h]
      have hcc : Char.ofNat (16 * (c.toNat / 16) + c.toNat % 16) = c := by
        rw [Nat.div_add_mod]
        exact Char.ofNat_toNat c
      rw [hcc]
      rfl
    · have hesc : escapeChar c = [c] := by
        unfold escapeChar
        rw [if_neg hsp, if_neg hct]
      have hspf : isSpecialChar c = false := by
        rw [Bool.eq_false_iff]
        exact hsp
      obtain ⟨hc1, hc2, hc3⟩ := not_special_ne hspf
      have hcond : (isSpecialChar c || decide (c.toNat < 32)) = false := by
        rw [hspf]
        simp [hct]
      rw [hesc, if_neg (by rw [hcond]; simp)]
      show scanValue (c :: t) = _
      unfold scanValue
      rw [if_neg hc1, if_neg hc2, if_neg hc3, h]
      rfl

theorem scanValue_escL : ∀ (v rest : List Char),
    (rest = [] ∨ rest.head? = some ',' ∨ rest.head? = some '+') →
    scanValue (escL v ++ rest) = some (unitsOf v, rest) := by
  intro v
  induction v with
  | nil =>
    intro rest hrest
    show scanValue rest = some ([], rest)
    exact scanValue_sep hrest
  | cons c cs ih =>
    intro rest hrest
    show scanValue ((escapeChar c ++ escL cs) ++ rest) = _
    rw [List.append_assoc]
    rw [scanValue_esc_step (ih rest hrest)]
    rfl

theorem unitsOf_ne_raw_space {c : Char} (hc : c ≠ ' ') :
    (if isSpecialChar c || decide (c.toNat < 32) then VUnit.esc c else VUnit.raw c) ≠
      VUnit.raw ' ' := by
  split_ifs with h
  · simp
  · simp
    intro he
    exact hc he

theorem trimTrail_unitsOf {v : List Char} (h : v.getLast? ≠ some ' ') :
    trimTrailUnits (unitsOf v) = unitsOf v := by
  unfold trimTrailUnits unitsOf
  rw [← List.map_reverse]
  cases hrev : v.reverse with
  | nil =>
    have : v = [] := by simpa using congrArg List.reverse hrev
    subst this
    rfl
  | cons c cs =>
    have hlast : v.getLast? = some c := by
      rw [← List.head?_reverse, hrev]
      rfl
    have hc : c ≠ ' ' := fun he => h (by rw [hlast, he])
    have hv : v = (c :: cs).reverse := by rw [← hrev, List.reverse_reverse]
    rw [List.map_cons, List.dropWhile_cons, if_neg]
    · rw [hv, List.map_reverse]
      rfl
    · simp only [decide_eq_true_eq]
      exact unitsOf_ne_raw_space hc

theorem decodeUnits_unitsOf (v : List Char) : decodeUnits (unitsOf v) = v := by
  unfold decodeUnits unitsOf
  rw [List.map_map]
  have : ∀ c : Char, (fun u => match u with | VUnit.raw c => c | VUnit.esc c => c)
      ((fun c => if isSpecialChar c || decide (c.toNat < 32) then VUnit.esc c
        else VUnit.raw c) c) = c := by
    intro c
    by_cases h : (isSpecialChar c || decide (c.toNat < 32)) = true
    · simp [h]
    · simp [h]
  calc v.map _ = v.map id := List.map_congr_left fun c _ => this c
  _ = v := List.map_id v

/-! ## Value and AVA parsing round-trip lemmas -/

theorem parseValue_default {s : List Char} (h1 : s.head? ≠ some '#')
    (h2 : s.head? ≠ some '"') (h3 : s.head? ≠ some ' ') :
    parseValue s = (scanValue s).map fun p => (decodeUnits (trimTrailUnits p.1), p.2) := by
  have hskip : skipSpaces s = s := skipSpaces_eq_self h3
  unfold parseValue
  rw [hskip]
  cases s with
  | nil => rfl
  | cons c cs =>
    have hc1 : c ≠ '#' := fun he => h1 (by rw [List.head?_cons, he])
    have hc2 : c ≠ '"' := fun he => h2 (by rw [List.head?_cons, he])
    show (if c = '#' then _ else if c = '"' then _ else
      (scanValue (c :: cs)).map fun p => (decodeUnits (trimTrailUnits p.1), p.2)) = _
    rw [if_neg hc1, if_neg hc2]

theorem edgeSafe_head {v : List Char} (hv : edgeSafeL v = true) : v.head? ≠ some ' ' := by
  unfold edgeSafeL at hv
  obtain ⟨ha, _⟩ := band_iff.mp hv
  simpa using ha

theorem edgeSafe_last {v : List Char} (hv : edgeSafeL v = true) : v.getLast? ≠ some ' ' := by
  unfold edgeSafeL at hv
  obtain ⟨_, hb⟩ := band_iff.mp hv
  simpa using hb

theorem escL_head {v : List Char} {rest : List Char} (hv : edgeSafeL v = true)
    (hrest : rest = [] ∨ rest.head? = some ',' ∨ rest.head? = some '+') :
    (escL v ++ rest).head? ≠ some '#' ∧ (escL v ++ rest).head? ≠ some '"' ∧
      (escL v ++ rest).head? ≠ some ' ' := by
  cases v with
  | nil =>
    show rest.head? ≠ some '#' ∧ rest.head? ≠ some '"' ∧ rest.head? ≠ some ' '
    rcases hrest with rfl | h | h
    · refine ⟨?_, ?_, ?_⟩ <;> simp
    · rw [h]
      refine ⟨?_, ?_, ?_⟩ <;> intro he <;> exact absurd (by injection he) (by decide)
    · rw [h]
      refine ⟨?_, ?_, ?_⟩ <;> intro he <;> exact absurd (by injection he) (by decide)
  | cons c cs =>
    by_cases hsp : isSpecialChar c = true
    · have hesc : escapeChar c = ['\\', c] := by unfold escapeChar; rw [if_pos hsp]
      have : (escL (c :: cs) ++ rest).head? = some '\\' := by
        show ((escapeChar c ++ escL cs) ++ rest).head? = _
        rw [hesc]
        rfl
      rw [this]
      refine ⟨?_, ?_, ?_⟩ <;> intro he <;> exact absurd (by injection he) (by decide)
    · by_cases hct : c.toNat < 32
      · have hesc : escapeChar c =
            ['\\', hexDigitChar (c.toNat / 16), hexDigitChar (c.toNat % 16)] := by
          unfold escapeChar
          rw [if_neg hsp, if_pos hct]
        have : (escL (c :: cs) ++ rest).head? = some '\\' := by
          show ((escapeChar c ++ escL cs) ++ rest).head? = _
          rw [hesc]
          rfl
        rw [this]
        refine ⟨?_, ?_, ?_⟩ <;> intro he <;> exact absurd (by injection he) (by decide)
      · have hesc : escapeChar c = [c] := by
          unfold escapeChar
          rw [if_neg hsp, if_neg hct]
        have hh : (escL (c :: cs) ++ rest).head? = some c := by
          show ((escapeChar c ++ escL cs) ++ rest).head? = _
          rw [hesc]
          rfl
        rw [hh]
        have hspf : isSpecialChar c = false := by rw [Bool.eq_false_iff]; exact hsp
        have hne := not_special_ne hspf
        have hcs : c ≠ ' ' := by
          have := edgeSafe_head hv
          intro he
          exact this (by rw [List.head?_cons, he])
        refine ⟨?_, ?_, ?_⟩ <;> intro he
        · exact hne.2.2 (Or.inr (Or.inr (Or.inr (Or.inr (Or.inl (by injection he))))))
        · exact hne.2.2 (Or.inl (by injection he))
        · exact hcs (by injection he)

theorem parseValue_print {v rest : List Char} (hv : edgeSafeL v = true)
    (hrest : rest = [] ∨ rest.head? = some ',' ∨ rest.head? = some '+') :
    parseValue (escL v ++ rest) = some (v, rest) := by
  obtain ⟨h1, h2, h3⟩ := escL_head hv hrest
  rw [parseValue_default h1 h2 h3, scanValue_escL v rest hrest]
  show some (decodeUnits (trimTrailUnits (unitsOf v)), rest) = _
  rw [trimTrail_unitsOf (edgeSafe_last hv), decodeUnits_unitsOf]

theorem parseAVA_print {t v rest : List Char} (ht : storedTypeOK t = true)
    (hv : edgeSafeL v = true)
    (hrest : rest = [] ∨ rest.head? = some ',' ∨ rest.head? = some '+') :
    parseAVA (lowerL t ++ '=' :: (escL v ++ rest)) = some (⟨lowerL t⟩, ⟨v⟩, rest) := by
  obtain ⟨c0, cs0, hteq, hhead0⟩ := storedOK_head ht
  have htype0 : typeChar c0 = true := by
    rcases bor_iff.mp hhead0 with h | h
    · exact typeChar_of_alpha h
    · exact typeChar_of_digit h
  have hskip : skipSpaces (lowerL t ++ '=' :: (escL v ++ rest)) =
      lowerL t ++ '=' :: (escL v ++ rest) := by
    apply skipSpaces_eq_self
    rw [hteq]
    show (lowerChar c0 :: (lowerL cs0 ++ '=' :: (escL v ++ rest))).head? ≠ some ' '
    rw [List.head?_cons]
    intro he
    have : lowerChar c0 = ' ' := by injection he
    exact typeChar_ne_space (by rw [typeChar_lower]; exact htype0) this
  have hall : ∀ ch ∈ lowerL t, (fun x => decide (x ≠ '=')) ch = true := by
    intro ch hch
    obtain ⟨d, hd, rfl⟩ := List.mem_map.mp hch
    simp only [decide_eq_true_eq]
    exact typeChar_ne_eqsign (by rw [typeChar_lower]; exact storedOK_chars ht d hd)
  obtain ⟨htake, hdrop⟩ :=
    takeWhile_append_all (lowerL t) hall '=' (escL v ++ rest) (by simp)
  unfold parseAVA
  rw [hskip, htake, hdrop]
  rw [if_pos (by rw [List.head?_cons])]
  show (match parseTypeTok (lowerL t) with
    | none => none
    | some tt =>
      match parseValue (escL v ++ rest) with
      | none => none
      | some (vv, r2) => some (String.mk tt, String.mk vv, r2)) = _
  rw [parseTypeTok_print ht]
  show (match parseValue (escL v ++ rest) with
    | none => none
    | some (vv, r2) => some (String.mk (lowerL t), String.mk vv, r2)) = _
  rw [parseValue_print hv hrest]

/-! ## RDN and DN level round-trip lemmas -/

theorem segChars_append (a : AttributeTypeAndValue) (rest : List Char) :
    segChars a ++ rest = lowerL a.Type'.data ++ '=' :: (escL a.Value.data ++ rest) := by
  show (lowerL a.Type'.data ++ '=' :: escL a.Value.data) ++ rest = _
  rw [List.append_assoc]
  rfl

theorem plainRDNChars_cons (a b : AttributeTypeAndValue) (attrs : List AttributeTypeAndValue) :
    plainRDNChars (a :: b :: attrs) = segChars a ++ '+' :: plainRDNChars (b :: attrs) := by
  show interL ['+'] (segChars a :: segChars b :: attrs.map segChars) = _
  rw [interL]
  simp [List.append_assoc]
  rfl

theorem plainDNChars_cons (r r2 : RelativeDN) (rdns : List RelativeDN) :
    plainDNChars (r :: r2 :: rdns) =
      plainRDNChars r.Attributes ++ ',' :: plainDNChars (r2 :: rdns) := by
  show interL [','] (plainRDNChars r.Attributes ::
    plainRDNChars r2.Attributes :: rdns.map fun x => plainRDNChars x.Attributes) = _
  rw [interL]
  simp [List.append_assoc]
  rfl

theorem parseRDN_print : ∀ (attrs : List AttributeTypeAndValue) (rest : List Char) (f : Nat),
    attrs ≠ [] →
    (∀ a ∈ attrs, storedTypeOK a.Type'.data = true ∧ edgeSafeL a.Value.data = true) →
    attrs.length ≤ f →
    (rest = [] ∨ rest.head? = some ',') →
    parseRDN f (plainRDNChars attrs ++ rest) =
      some (attrs.map fun a => ⟨⟨lowerL a.Type'.data⟩, a.Value⟩, rest) := by
  intro attrs
  induction attrs with
  | nil => intro rest f h; exact absurd rfl h
  | cons a attrs ih =>
    intro rest f _ hwf hf hrest
    obtain ⟨ha1, ha2⟩ := hwf a (by simp)
    cases f with
    | zero => simp at hf
    | succ f =>
      cases attrs with
      | nil =>
        show parseRDN (f + 1) (segChars a ++ rest) = _
        have hava : parseAVA (segChars a ++ rest) =
            some (⟨lowerL a.Type'.data⟩, ⟨a.Value.data⟩, rest) := by
          rw [segChars_append]
          apply parseAVA_print ha1 ha2
          rcases hrest with rfl | hr
          · exact Or.inl rfl
          · exact Or.inr (Or.inl hr)
        unfold parseRDN
        rw [hava]
        rcases hrest with rfl | hr
        · rfl
        · cases rest with
          | nil => simp at hr
          | cons c cs =>
            have hc : c = ',' := by simpa using hr
            subst hc
            rfl
      | cons b attrs' =>
        show parseRDN (f + 1) (plainRDNChars (a :: b :: attrs') ++ rest) = _
        rw [plainRDNChars_cons, List.append_assoc, List.cons_append]
        have hava : parseAVA (segChars a ++ '+' :: (plainRDNChars (b :: attrs') ++ rest)) =
            some (⟨lowerL a.Type'.data⟩, ⟨a.Value.data⟩,
              '+' :: (plainRDNChars (b :: attrs') ++ rest)) := by
          rw [segChars_append]
          exact parseAVA_print ha1 ha2 (Or.inr (Or.inr (by simp)))
        unfold parseRDN
        rw [hava]
        show (parseRDN f (plainRDNChars (b :: attrs') ++ rest)).map
          (fun p => ((⟨⟨lowerL a.Type'.data⟩, ⟨a.Value.data⟩⟩ : AttributeTypeAndValue)
            :: p.1, p.2)) = _
        rw [ih rest f (by simp) (fun x hx => hwf x (by simp [hx]))
          (by simpa using Nat.le_of_succ_le_succ hf) hrest]
        rfl

theorem totalAVAs_cons (r : RelativeDN) (rdns : List RelativeDN) :
    totalAVAs (r :: rdns) = r.Attributes.length + totalAVAs rdns := by
  simp [totalAVAs]

theorem parseRDNList_print : ∀ (rdns : List RelativeDN) (f : Nat),
    rdns ≠ [] →
    (∀ r ∈ rdns, r.Attributes ≠ [] ∧
      ∀ a ∈ r.Attributes, storedTypeOK a.Type'.data = true ∧ edgeSafeL a.Value.data = true) →
    totalAVAs rdns + rdns.length ≤ f →
    parseRDNList f (plainDNChars rdns) = some (lowerTypesL rdns) := by
  intro rdns
  induction rdns with
  | nil => intro f h; exact absurd rfl h
  | cons r rdns ih =>
    intro f _ hwf hf
    obtain ⟨hne1, hwf1⟩ := hwf r (by simp)
    cases f with
    | zero =>
      rw [totalAVAs_cons, List.length_cons] at hf
      omega
    | succ f =>
      have hfr : r.Attributes.length ≤ f + 1 := by
        rw [totalAVAs_cons, List.length_cons] at hf
        omega
      cases rdns with
      | nil =>
        show parseRDNList (f + 1) (plainRDNChars r.Attributes) = _
        have hr := parseRDN_print r.Attributes [] (f + 1) hne1 hwf1 hfr (Or.inl rfl)
        rw [List.append_nil] at hr
        unfold parseRDNList
        rw [hr]
        rfl
      | cons r2 rdns' =>
        rw [plainDNChars_cons]
        have hr := parseRDN_print r.Attributes (',' :: plainDNChars (r2 :: rdns')) (f + 1)
          hne1 hwf1 hfr (Or.inr rfl)
        unfold parseRDNList
        rw [hr]
        show (parseRDNList f (plainDNChars (r2 :: rdns'))).map
          (fun rs => RelativeDN.mk
            (r.Attributes.map fun a => ⟨⟨lowerL a.Type'.data⟩, a.Value⟩) :: rs) = _
        rw [ih f (by simp) (fun x hx => hwf x (by simp [hx])) (by
          rw [totalAVAs_cons, List.length_cons] at hf
          omega)]
        rfl

theorem segChars_length (a : AttributeTypeAndValue)
    (h : storedTypeOK a.Type'.data = true) : 2 ≤ (segChars a).length := by
  obtain ⟨c0, cs0, hteq, _⟩ := storedOK_head h
  show 2 ≤ (lowerL a.Type'.data ++ '=' :: escL a.Value.data).length
  rw [List.length_append, hteq]
  simp [lowerL]
  omega

theorem plainRDNChars_length : ∀ (attrs : List AttributeTypeAndValue), attrs ≠ [] →
    (∀ a ∈ attrs, storedTypeOK a.Type'.data = true) →
    2 * attrs.length ≤ (plainRDNChars attrs).length + 1 := by
  intro attrs
  induction attrs with
  | nil => intro h; exact absurd rfl h
  | cons a attrs ih =>
    intro _ hwf
    have ha := segChars_length a (hwf a (by simp))
    cases attrs with
    | nil =>
      show 2 * 1 ≤ (segChars a).length + 1
      omega
    | cons b attrs' =>
      have hih := ih (by simp) (fun x hx => hwf x (by simp [hx]))
      rw [plainRDNChars_cons]
      simp only [List.length_append, List.length_cons] at hih ⊢
      omega

theorem plainDNChars_length : ∀ (rdns : List RelativeDN), rdns ≠ [] →
    (∀ r ∈ rdns, r.Attributes ≠ [] ∧
      ∀ a ∈ r.Attributes, storedTypeOK a.Type'.data = true) →
    totalAVAs rdns + rdns.length ≤ (plainDNChars rdns).length + 1 := by
  intro rdns
  induction rdns with
  | nil => intro h; exact absurd rfl h
  | cons r rdns ih =>
    intro _ hwf
    obtain ⟨hne1, hwf1⟩ := hwf r (by simp)
    have hlen1 : 2 * r.Attributes.length ≤ (plainRDNChars r.Attributes).length + 1 :=
      plainRDNChars_length r.Attributes hne1 hwf1
    have hge1 : 1 ≤ r.Attributes.length := by
      cases hx : r.Attributes with
      | nil => exact absurd hx hne1
      | cons _ _ => simp
    cases rdns with
    | nil =>
      show totalAVAs [r] + 1 ≤ (plainRDNChars r.Attributes).length + 1
      rw [totalAVAs_cons]
      show r.Attributes.length + totalAVAs [] + 1 ≤ _
      have : totalAVAs ([] : List RelativeDN) = 0 := rfl
      omega
    | cons r2 rdns' =>
      have hih := ih (by simp) (fun x hx => hwf x (by simp [hx]))
      rw [plainDNChars_cons, totalAVAs_cons]
      simp only [List.length_append, List.length_cons, totalAVAs_cons] at hih ⊢
      omega

/-! ## Top-level parse of a printed DN -/

theorem segChars_head {a : AttributeTypeAndValue} (h : storedTypeOK a.Type'.data = true) :
    ∃ c rest', segChars a = c :: rest' ∧ typeChar c = true := by
  obtain ⟨c0, cs0, hteq, hhead⟩ := storedOK_head h
  refine ⟨lowerChar c0, lowerL cs0 ++ '=' :: escL a.Value.data, ?_, ?_⟩
  · show lowerL a.Type'.data ++ '=' :: escL a.Value.data = _
    rw [hteq]
    rfl
  · rw [typeChar_lower]
    rcases bor_iff.mp hhead with h | h
    · exact typeChar_of_alpha h
    · exact typeChar_of_digit h

theorem plainRDNChars_shape {attrs : List AttributeTypeAndValue} (hne : attrs ≠ [])
    (hwf : ∀ a ∈ attrs, storedTypeOK a.Type'.data = true) :
    ∃ c rest', plainRDNChars attrs = c :: rest' ∧ typeChar c = true := by
  cases attrs with
  | nil => exact absurd rfl hne
  | cons a attrs =>
    obtain ⟨c, r0, hseg, hc⟩ := segChars_head (hwf a (by simp))
    cases attrs with
    | nil =>
      refine ⟨c, r0, ?_, hc⟩
      show segChars a = _
      rw [hseg]
    | cons b attrs' =>
      refine ⟨c, r0 ++ '+' :: plainRDNChars (b :: attrs'), ?_, hc⟩
      rw [plainRDNChars_cons, hseg]
      rfl

theorem plainDNChars_shape {rdns : List RelativeDN} (hne : rdns ≠ [])
    (hwf : ∀ r ∈ rdns, r.Attributes ≠ [] ∧
      ∀ a ∈ r.Attributes, storedTypeOK a.Type'.data = true) :
    ∃ c rest', plainDNChars rdns = c :: rest' ∧ typeChar c = true := by
  cases rdns with
  | nil => exact absurd rfl hne
  | cons r rdns' =>
    obtain ⟨hne1, hwf1⟩ := hwf r (by simp)
    obtain ⟨c, r0, hrdn, hc⟩ := plainRDNChars_shape hne1 hwf1
    cases rdns' with
    | nil =>
      refine ⟨c, r0, ?_, hc⟩
      show plainRDNChars r.Attributes = _
      rw [hrdn]
    | cons r2 rdns'' =>
      refine ⟨c, r0 ++ ',' :: plainDNChars (r2 :: rdns''), ?_, hc⟩
      rw [plainDNChars_cons, hrdn]
      rfl

theorem parseDNChars_print (rdns : List RelativeDN)
    (hwf : ∀ r ∈ rdns, r.Attributes ≠ [] ∧
      ∀ a ∈ r.Attributes, storedTypeOK a.Type'.data = true ∧ edgeSafeL a.Value.data = true) :
    parseDNChars (plainDNChars rdns) = some (lowerTypesL rdns) := by
  cases rdns with
  | nil => rfl
  | cons r rdns' =>
    have hwf2 : ∀ r2 ∈ r :: rdns', r2.Attributes ≠ [] ∧
        ∀ a ∈ r2.Attributes, storedTypeOK a.Type'.data = true :=
      fun r2 hr2 => ⟨(hwf r2 hr2).1, fun a ha => ((hwf r2 hr2).2 a ha).1⟩
    obtain ⟨c, rest', hshape, hc⟩ := plainDNChars_shape (by simp) hwf2
    have hskip : skipSpaces (plainDNChars (r :: rdns')) = plainDNChars (r :: rdns') := by
      apply skipSpaces_eq_self
      rw [hshape, List.head?_cons]
      intro he
      exact typeChar_ne_space hc (by injection he)
    unfold parseDNChars
    rw [hskip, if_neg (by rw [hshape]; simp)]
    exact parseRDNList_print (r :: rdns') _ (by simp) hwf
      (plainDNChars_length (r :: rdns') (by simp) hwf2)

/-! ## Soundness of the parser: parsed RDNs are well-formed -/

theorem parseAVA_sound {s : List Char} {t v : String} {rest : List Char}
    (h : parseAVA s = some (t, v, rest)) : storedTypeOK t.data = true := by
  unfold parseAVA at h
  split at h
  · rename_i hcond
    cases htok : parseTypeTok ((skipSpaces s).takeWhile fun c => decide (c ≠ '=')) with
    | none => rw [htok] at h; simp at h
    | some tt =>
      rw [htok] at h
      cases hval : parseValue (((skipSpaces s).dropWhile fun c => decide (c ≠ '=')).tail) with
      | none => rw [hval] at h; simp at h
      | some p =>
        rw [hval] at h
        have hsound := parseTypeTok_sound htok
        cases p with
        | mk vv r2 =>
          simp only [Option.some.injEq] at h
          have ht : t = ⟨tt⟩ := (Prod.mk.injEq _ _ _ _ |>.mp h).1.symm
          rw [ht]
          exact hsound
  · simp at h

theorem parseRDN_sound : ∀ (f : Nat) (s : List Char) (attrs : List AttributeTypeAndValue)
    (rest : List Char), parseRDN f s = some (attrs, rest) →
    attrs ≠ [] ∧ ∀ a ∈ attrs, storedTypeOK a.Type'.data = true := by
  intro f
  induction f with
  | zero => intro s attrs rest h; simp [parseRDN] at h
  | succ f ih =>
    intro s attrs rest h
    unfold parseRDN at h
    cases hava : parseAVA s with
    | none => rw [hava] at h; simp at h
    | some p =>
      obtain ⟨t, v, rest'⟩ := p
      rw [hava] at h
      simp only [] at h
      have htok := parseAVA_sound hava
      split at h
      · rename_i rest0 r
        cases hrec : parseRDN f r with
        | none => rw [hrec] at h; simp at h
        | some q =>
          obtain ⟨attrs1, rest1⟩ := q
          rw [hrec] at h
          simp only [Option.map_some', Option.some.injEq, Prod.mk.injEq] at h
          obtain ⟨ha, -⟩ := h
          subst ha
          obtain ⟨hne1, hall1⟩ := ih _ attrs1 rest1 hrec
          refine ⟨by simp, ?_⟩
          intro a ha
          rcases List.mem_cons.mp ha with rfl | ha
          · exact htok
          · exact hall1 a ha
      · simp only [Option.some.injEq, Prod.mk.injEq] at h
        obtain ⟨ha, -⟩ := h
        subst ha
        refine ⟨by simp, ?_⟩
        intro a ha
        have : a = ⟨t, v⟩ := by simpa using ha
        subst this
        exact htok

theorem parseRDNList_sound : ∀ (f : Nat) (s : List Char) (rdns : List RelativeDN),
    parseRDNList f s = some rdns →
    ∀ r ∈ rdns, r.Attributes ≠ [] ∧ ∀ a ∈ r.Attributes, storedTypeOK a.Type'.data = true := by
  intro f
  induction f with
  | zero => intro s rdns h; simp [parseRDNList] at h
  | succ f ih =>
    intro s rdns h
    unfold parseRDNList at h
    cases hrdn : parseRDN (f + 1) s with
    | none => rw [hrdn] at h; simp at h
    | some p =>
      obtain ⟨attrs, rest⟩ := p
      rw [hrdn] at h
      simp only [] at h
      obtain ⟨hne1, hall1⟩ := parseRDN_sound (f + 1) s attrs rest hrdn
      split at h
      · simp only [Option.some.injEq] at h
        subst h
        intro r hr
        have : r = ⟨attrs⟩ := by simpa using hr
        subst this
        exact ⟨hne1, hall1⟩
      · rename_i rest0 r0
        cases hrec : parseRDNList f r0 with
        | none => rw [hrec] at h; simp at h
        | some rdns1 =>
          rw [hrec] at h
          simp only [Option.map_some', Option.some.injEq] at h
          subst h
          intro r hr
          rcases List.mem_cons.mp hr with rfl | hr
          · exact ⟨hne1, hall1⟩
          · exact ih _ rdns1 hrec r hr
      · simp at h


theorem parseDNChars_sound {s : List Char} {rdns : List RelativeDN}
    (h : parseDNChars s = some rdns) :
    ∀ r ∈ rdns, r.Attributes ≠ [] ∧ ∀ a ∈ r.Attributes, storedTypeOK a.Type'.data = true := by
  unfold parseDNChars at h
  split at h
  · simp only [Option.some.injEq] at h
    subst h
    intro r hr
    simp at hr
  · exact parseRDNList_sound _ _ rdns h

/-! ## From `New` back to the parse: the trim loop is the identity on
well-formed stored types -/

theorem storedOK_lower {t : List Char} (h : storedTypeOK t = true) :
    storedTypeOK (lowerL t) = true := by
  unfold storedTypeOK at h ⊢
  rw [descriptorOK_lower]
  show (descriptorOK t || numOidAux false (lowerL t)) = true
  rw [numOidAux_lower]
  exact h

theorem trimAttrs_eq_self : ∀ {attrs : List AttributeTypeAndValue},
    (∀ a ∈ attrs, storedTypeOK a.Type'.data = true) →
    (attrs.map fun a => (⟨⟨trimL a.Type'.data⟩, a.Value⟩ : AttributeTypeAndValue)) = attrs := by
  intro attrs
  induction attrs with
  | nil => intro _; rfl
  | cons a attrs ih =>
    intro h
    rw [List.map_cons, ih (fun b hb => h b (by simp [hb]))]
    have ht : trimL a.Type'.data = a.Type'.data := storedOK_trim (h a (by simp))
    rw [ht]

theorem trimRdns_eq_self {rdns : List RelativeDN}
    (h : ∀ r ∈ rdns, ∀ a ∈ r.Attributes, storedTypeOK a.Type'.data = true) :
    trimRdns rdns = rdns := by
  unfold trimRdns
  induction rdns with
  | nil => rfl
  | cons r rdns ih =>
    rw [List.map_cons, ih (fun r2 hr2 => h r2 (by simp [hr2]))]
    rw [trimAttrs_eq_self (h r (by simp))]

theorem New_some {s : String} {dn : DN} (h : New s [] = some dn) :
    parseDNChars s.data = some dn.RDNs ∧ dn.CaseFold = false ∧ dn.StringFold = false := by
  unfold New at h
  cases hp : parseDNChars s.data with
  | none => rw [hp] at h; simp only [] at h; exact absurd h (by simp)
  | some rdns =>
    rw [hp] at h
    simp only [Option.some.injEq] at h
    have htrim : trimRdns rdns = rdns :=
      trimRdns_eq_self (fun r hr a ha => (parseDNChars_sound hp r hr).2 a ha)
    rw [htrim] at h
    rw [← h]
    exact ⟨rfl, rfl, rfl⟩

/-! ## The sort permutes: membership and non-emptiness -/

theorem insertAVA_mem {b a : AttributeTypeAndValue} : ∀ {l : List AttributeTypeAndValue},
    b ∈ insertAVA a l ↔ b = a ∨ b ∈ l := by
  intro l
  induction l with
  | nil => simp [insertAVA]
  | cons c l ih =>
    show b ∈ (if ltL c.Type'.data a.Type'.data then c :: insertAVA a l else a :: c :: l) ↔ _
    by_cases hc : ltL c.Type'.data a.Type'.data = true
    · rw [if_pos hc]
      simp only [List.mem_cons, ih]
      tauto
    · rw [if_neg hc]
      simp only [List.mem_cons]

theorem sortAVAs_mem {b : AttributeTypeAndValue} : ∀ {l : List AttributeTypeAndValue},
    b ∈ sortAVAs l ↔ b ∈ l := by
  intro l
  induction l with
  | nil => simp [sortAVAs]
  | cons a l ih =>
    show b ∈ insertAVA a (sortAVAs l) ↔ _
    rw [insertAVA_mem]
    simp only [List.mem_cons, ih]

theorem insertAVA_ne_nil (a : AttributeTypeAndValue) (l : List AttributeTypeAndValue) :
    insertAVA a l ≠ [] := by
  cases l with
  | nil => simp [insertAVA]
  | cons c l =>
    show (if ltL c.Type'.data a.Type'.data then c :: insertAVA a l else a :: c :: l) ≠ []
    split <;> simp

theorem sortAVAs_ne_nil {l : List AttributeTypeAndValue} (h : l ≠ []) :
    sortAVAs l ≠ [] := by
  cases l with
  | nil => exact absurd rfl h
  | cons a l => exact insertAVA_ne_nil a (sortAVAs l)

/-! ## Rendering as a plain print of the sorted RDNs -/

theorem dnChars_eq_plain (rdns : List RelativeDN) :
    dnChars rdns = plainDNChars (rdns.map fun r => RelativeDN.mk (sortAVAs r.Attributes)) := by
  unfold dnChars plainDNChars plainRDNChars
  rw [List.map_map]
  rfl

/-! ## Reparsing lowers the types but keeps the DN `Equal` -/

theorem avaZipLower : ∀ (attrs : List AttributeTypeAndValue),
    (((attrs.map fun a =>
        (⟨⟨lowerL a.Type'.data⟩, a.Value⟩ : AttributeTypeAndValue)).zip attrs).all
      fun p =>
        decide (lowerL p.1.Type'.data = lowerL p.2.Type'.data) &&
        (if (false : Bool) then decide (lowerL p.1.Value.data = lowerL p.2.Value.data)
         else decide (p.1.Value = p.2.Value))) = true := by
  intro attrs
  induction attrs with
  | nil => rfl
  | cons a attrs ih =>
    rw [List.map_cons, List.zip_cons_cons, List.all_cons, ih]
    simp [lowerL_idem]

theorem rdnEqual_lower (attrs : List AttributeTypeAndValue) :
    RelativeDN.Equal ⟨attrs.map fun a => ⟨⟨lowerL a.Type'.data⟩, a.Value⟩⟩ ⟨attrs⟩ false
      = true := by
  unfold RelativeDN.Equal
  rw [if_neg (by simp)]
  exact avaZipLower attrs

theorem rdnZipLower : ∀ (rdns : List RelativeDN),
    (((rdns.map fun r =>
        (⟨r.Attributes.map fun a => ⟨⟨lowerL a.Type'.data⟩, a.Value⟩⟩ : RelativeDN)).zip
          rdns).all fun p => RelativeDN.Equal p.1 p.2 false) = true := by
  intro rdns
  induction rdns with
  | nil => rfl
  | cons r rdns ih =>
    rw [List.map_cons, List.zip_cons_cons, List.all_cons, ih]
    rw [rdnEqual_lower r.Attributes]
    rfl

theorem dnEqual_lower (rdns : List RelativeDN) (cf sf : Bool) :
    DN.Equal ⟨lowerTypesL rdns, false, false⟩ ⟨rdns, cf, sf⟩ = true := by
  unfold DN.Equal lowerTypesL
  rw [if_neg (by simp)]
  exact rdnZipLower rdns

/-! ## Reparsing the canonical string -/

theorem sortedByTypeB_eq_chain : ∀ (attrs : List AttributeTypeAndValue),
    sortedByTypeB attrs = chainLeL (attrs.map fun a => a.Type'.data) := by
  intro attrs
  induction attrs with
  | nil => rfl
  | cons a attrs ih =>
    cases attrs with
    | nil => rfl
    | cons b t =>
      rw [sortedByTypeB_cons_cons, ih]
      rfl

theorem segChars_lower (a : AttributeTypeAndValue) :
    segChars ⟨⟨lowerL a.Type'.data⟩, a.Value⟩ = segChars a := by
  show lowerL (lowerL a.Type'.data) ++ '=' :: escL a.Value.data = _
  rw [lowerL_idem]
  rfl

theorem dnChars_lower_sorted {rdns : List RelativeDN}
    (hstable : (rdns.all fun r =>
      chainLeL ((sortAVAs r.Attributes).map fun a => lowerL a.Type'.data)) = true) :
    dnChars (lowerTypesL (rdns.map fun r => RelativeDN.mk (sortAVAs r.Attributes)))
      = dnChars rdns := by
  unfold dnChars lowerTypesL
  rw [List.map_map, List.map_map]
  congr 1
  apply List.map_congr_left
  intro r hr
  show interL ['+']
      ((sortAVAs ((sortAVAs r.Attributes).map fun a => ⟨⟨lowerL a.Type'.data⟩, a.Value⟩)).map
        segChars) = _
  have hchain := List.all_eq_true.mp hstable r hr
  have hsorted : sortedByTypeB
      ((sortAVAs r.Attributes).map fun a =>
        (⟨⟨lowerL a.Type'.data⟩, a.Value⟩ : AttributeTypeAndValue)) = true := by
    rw [sortedByTypeB_eq_chain, List.map_map]
    exact hchain
  rw [sortAVAs_eq_self hsorted, List.map_map]
  congr 1
  apply List.map_congr_left
  intro a _
  exact segChars_lower a

theorem reparse_canonical {dn : DN}
    (hsf : dn.StringFold = false)
    (hwf : ∀ r ∈ dn.RDNs, r.Attributes ≠ [] ∧
      ∀ a ∈ r.Attributes, storedTypeOK a.Type'.data = true)
    (hsafe : edgeSafeDN dn = true) :
    New (DN.toString dn) [] = some
      ⟨lowerTypesL (dn.RDNs.map fun r => RelativeDN.mk (sortAVAs r.Attributes)),
       false, false⟩ := by
  have hdata : (DN.toString dn).data
      = plainDNChars (dn.RDNs.map fun r => RelativeDN.mk (sortAVAs r.Attributes)) := by
    unfold DN.toString
    rw [hsf]
    show dnChars dn.RDNs = _
    exact dnChars_eq_plain dn.RDNs
  have hwf2 : ∀ r2 ∈ dn.RDNs.map fun r => RelativeDN.mk (sortAVAs r.Attributes),
      r2.Attributes ≠ [] ∧ ∀ a ∈ r2.Attributes,
        storedTypeOK a.Type'.data = true ∧ edgeSafeL a.Value.data = true := by
    intro r2 hr2
    obtain ⟨r, hr, hr2eq⟩ := List.mem_map.mp hr2
    have hra : r2.Attributes = sortAVAs r.Attributes := by rw [← hr2eq]
    constructor
    · rw [hra]
      exact sortAVAs_ne_nil (hwf r hr).1
    · intro a ha
      rw [hra] at ha
      have hmem : a ∈ r.Attributes := sortAVAs_mem.mp ha
      refine ⟨(hwf r hr).2 a hmem, ?_⟩
      have hsafe2 := List.all_eq_true.mp hsafe r hr
      exact List.all_eq_true.mp hsafe2 a hmem
  have hparse : parseDNChars (DN.toString dn).data = some
      (lowerTypesL (dn.RDNs.map fun r => RelativeDN.mk (sortAVAs r.Attributes))) := by
    rw [hdata]
    exact parseDNChars_print _ hwf2
  have htrim : trimRdns
      (lowerTypesL (dn.RDNs.map fun r => RelativeDN.mk (sortAVAs r.Attributes)))
      = lowerTypesL (dn.RDNs.map fun r => RelativeDN.mk (sortAVAs r.Attributes)) := by
    apply trimRdns_eq_self
    intro r2 hr2 a ha
    obtain ⟨r1, hr1, hr2eq⟩ := List.mem_map.mp hr2
    have hra : r2.Attributes = r1.Attributes.map fun a => ⟨⟨lowerL a.Type'.data⟩, a.Value⟩ := by
      rw [← hr2eq]
    rw [hra] at ha
    obtain ⟨a1, ha1, haeq⟩ := List.mem_map.mp ha
    have hta : a.Type'.data = lowerL a1.Type'.data := by rw [← haeq]
    rw [hta]
    obtain ⟨r0, hr0, hr1eq⟩ := List.mem_map.mp hr1
    have hr1a : a1 ∈ sortAVAs r0.Attributes := by
      rw [← hr1eq] at ha1
      exact ha1
    exact storedOK_lower ((hwf r0 hr0).2 a1 (sortAVAs_mem.mp hr1a))
  unfold New
  rw [hparse]
  simp only []
  rw [htrim]

/-- C1: the claimed round trip fails as stated: parsing `ou=b+cn=a`, its
canonical form `cn=a+ou=b` reparses to a DN that is not `Equal` to the
first parse, because `Equal` compares AVAs positionally while the
canonical form reorders them. -/
theorem claim_c1_counterexample :
    New "ou=b+cn=a" [] = some ⟨[⟨[⟨"ou", "b"⟩, ⟨"cn", "a"⟩]⟩], false, false⟩ ∧
    CanonicalDN "ou=b+cn=a" [] = some "cn=a+ou=b" ∧
    New "cn=a+ou=b" [] = some ⟨[⟨[⟨"cn", "a"⟩, ⟨"ou", "b"⟩]⟩], false, false⟩ ∧
    DN.Equal ⟨[⟨[⟨"cn", "a"⟩, ⟨"ou", "b"⟩]⟩], false, false⟩
      ⟨[⟨[⟨"ou", "b"⟩, ⟨"cn", "a"⟩]⟩], false, false⟩ = false := by
  refine ⟨by decide, by decide, by decide, by decide⟩

/-- C1 (amended): for every DN text accepted by the parser whose values do
not start or end with a space, the canonical form reparses successfully,
and the reparse is `Equal` (with both flags false) to the first parse with
each RDN's AVAs sorted by type - the positional AVA order is the sorted
one, not the original one. -/
theorem claim_c1_roundtrip (s : String) (dn : DN)
    (h : New s [] = some dn) (hsafe : edgeSafeDN dn = true) :
    ∃ c dn2, CanonicalDN s [] = some c ∧ New c [] = some dn2 ∧
      DN.Equal dn2 (sortedDN dn) = true := by
  obtain ⟨hp, hcf, hsf⟩ := New_some h
  have hwf : ∀ r ∈ dn.RDNs, r.Attributes ≠ [] ∧
      ∀ a ∈ r.Attributes, storedTypeOK a.Type'.data = true := parseDNChars_sound hp
  refine ⟨DN.toString dn,
    ⟨lowerTypesL (dn.RDNs.map fun r => RelativeDN.mk (sortAVAs r.Attributes)),
     false, false⟩, ?_, ?_, ?_⟩
  · unfold CanonicalDN
    rw [h]
    rfl
  · exact reparse_canonical hsf hwf hsafe
  · unfold sortedDN
    exact dnEqual_lower _ _ _

theorem claim_c1_witness :
    ∃ c dn2, CanonicalDN "OU=Sales+CN=J. Smith,DC=example,DC=net" [] = some c ∧
      New c [] = some dn2 ∧
      DN.Equal dn2 (sortedDN ⟨[⟨[⟨"OU", "Sales"⟩, ⟨"CN", "J. Smith"⟩]⟩,
        ⟨[⟨"DC", "example"⟩]⟩, ⟨[⟨"DC", "net"⟩]⟩], false, false⟩) = true :=
  claim_c1_roundtrip "OU=Sales+CN=J. Smith,DC=example,DC=net"
    ⟨[⟨[⟨"OU", "Sales"⟩, ⟨"CN", "J. Smith"⟩]⟩, ⟨[⟨"DC", "example"⟩]⟩,
      ⟨[⟨"DC", "net"⟩]⟩], false, false⟩ (by decide) (by decide)

/-- C9: canonicalization is not idempotent as claimed: `Z=1+a=2` parses
(raw sort keeps `Z` before `a` since uppercase sorts first), canonicalizes
to `z=1+a=2`, but canonicalizing that yields `a=2+z=1` - lowercasing the
types at print time can invert the sort order of the reparse. -/
theorem claim_c9_counterexample :
    CanonicalDN "Z=1+a=2" [] = some "z=1+a=2" ∧
    CanonicalDN "z=1+a=2" [] = some "a=2+z=1" ∧
    ((CanonicalDN "Z=1+a=2" []).bind fun c => CanonicalDN c []) ≠ CanonicalDN "Z=1+a=2" [] := by
  refine ⟨by decide, by decide, by decide⟩

/-- C9 (amended): for a DN text accepted by the parser whose values do not
start or end with a space and whose sorted AVA lists stay sorted after
lowercasing the types, canonicalization is idempotent: the canonical form
reparses and prints back to itself. -/
theorem claim_c9_idempotent (s : String) (dn : DN)
    (h : New s [] = some dn) (hsafe : edgeSafeDN dn = true)
    (hstable : stableSorted dn = true) :
    CanonicalDN s [] = some (DN.toString dn) ∧
    CanonicalDN (DN.toString dn) [] = some (DN.toString dn) := by
  obtain ⟨hp, hcf, hsf⟩ := New_some h
  have hwf : ∀ r ∈ dn.RDNs, r.Attributes ≠ [] ∧
      ∀ a ∈ r.Attributes, storedTypeOK a.Type'.data = true := parseDNChars_sound hp
  refine ⟨?_, ?_⟩
  · unfold CanonicalDN
    rw [h]
    rfl
  · unfold CanonicalDN
    rw [reparse_canonical hsf hwf hsafe]
    show some (DN.toString _) = _
    have hren : DN.toString
        ⟨lowerTypesL (dn.RDNs.map fun r => RelativeDN.mk (sortAVAs r.Attributes)),
         false, false⟩ = DN.toString dn := by
      unfold DN.toString
      rw [hsf]
      show (⟨dnChars (lowerTypesL (dn.RDNs.map fun r =>
          RelativeDN.mk (sortAVAs r.Attributes)))⟩ : String) = (⟨dnChars dn.RDNs⟩ : String)
      have hst : (dn.RDNs.all fun r =>
          chainLeL ((sortAVAs r.Attributes).map fun a => lowerL a.Type'.data)) = true := hstable
      rw [dnChars_lower_sorted hst]
    rw [hren]

theorem claim_c9_witness :
    CanonicalDN "dc=example,dc=net" [] =
      some (DN.toString ⟨[⟨[⟨"dc", "example"⟩]⟩, ⟨[⟨"dc", "net"⟩]⟩], false, false⟩) ∧
    CanonicalDN (DN.toString ⟨[⟨[⟨"dc", "example"⟩]⟩, ⟨[⟨"dc", "net"⟩]⟩], false, false⟩) [] =
      some (DN.toString ⟨[⟨[⟨"dc", "example"⟩]⟩, ⟨[⟨"dc", "net"⟩]⟩], false, false⟩) :=
  claim_c9_idempotent "dc=example,dc=net"
    ⟨[⟨[⟨"dc", "example"⟩]⟩, ⟨[⟨"dc", "net"⟩]⟩], false, false⟩
    (by decide) (by decide) (by decide)

/-! ## Ordering a DN against its ancestor -/

theorem zip_self_all {α : Type} (f : α × α → Bool) (hf : ∀ a, f (a, a) = true) :
    ∀ l : List α, ((l.zip l).all f) = true
  | [] => rfl
  | a :: l => by
    rw [List.zip_cons_cons, List.all_cons, hf a, zip_self_all f hf l]
    rfl

theorem rdnEqual_refl (r : RelativeDN) (fold : Bool) : RelativeDN.Equal r r fold = true := by
  unfold RelativeDN.Equal
  rw [if_neg (by simp)]
  apply zip_self_all
  intro a
  cases fold <;> simp

theorem isSub_of_tail {a b : DN} (hlen : b.RDNs.length < a.RDNs.length)
    (htail : a.RDNs.drop (a.RDNs.length - b.RDNs.length) = b.RDNs) :
    a.IsSubordinate (some b) = true := by
  show (if a.RDNs.length ≤ b.RDNs.length then false
    else (b.RDNs.zip (a.RDNs.drop (a.RDNs.length - b.RDNs.length))).all fun p =>
      RelativeDN.Equal p.1 p.2 a.CaseFold) = true
  rw [if_neg (by omega), htail]
  exact zip_self_all _ (fun r => rdnEqual_refl r a.CaseFold) b.RDNs

theorem interL_append (sep : List Char) : ∀ (l1 l2 : List (List Char)), l1 ≠ [] → l2 ≠ [] →
    interL sep (l1 ++ l2) = interL sep l1 ++ sep ++ interL sep l2 := by
  intro l1
  induction l1 with
  | nil => intro l2 h1 _; exact absurd rfl h1
  | cons x l1 ih =>
    intro l2 _ h2
    cases l1 with
    | nil =>
      cases l2 with
      | nil => exact absurd rfl h2
      | cons y l2 =>
        show interL sep (x :: y :: l2) = x ++ sep ++ interL sep (y :: l2)
        rw [interL]
    | cons z l1 =>
      show interL sep (x :: z :: (l1 ++ l2)) = interL sep (x :: z :: l1) ++ sep ++ interL sep l2
      rw [interL]
      have hz : interL sep ((z :: l1) ++ l2)
          = interL sep (z :: l1) ++ sep ++ interL sep l2 := ih l2 (by simp) h2
      rw [List.cons_append] at hz
      rw [hz, interL]
      simp [List.append_assoc]

theorem dnChars_append {rdns1 rdns2 : List RelativeDN} (h1 : rdns1 ≠ []) (h2 : rdns2 ≠ []) :
    dnChars (rdns1 ++ rdns2) = dnChars rdns1 ++ ',' :: dnChars rdns2 := by
  unfold dnChars
  rw [List.map_append, interL_append [','] _ _ (by simp [h1]) (by simp [h2])]
  simp [List.append_assoc]

theorem ltL_nil_right : ∀ (x : List Char), ltL x [] = false
  | [] => rfl
  | _ :: _ => rfl

theorem lowerL_comma_cons (x y : List Char) :
    lowerL (x ++ ',' :: y) = lowerL x ++ ',' :: lowerL y := by
  rw [lowerL_append]
  show lowerL x ++ lowerChar ',' :: lowerL y = _
  have : lowerChar ',' = ',' := by decide
  rw [this]

/-- C6: the two-sided ordering fails as stated: with `CaseFold` unset the
raw sort keys of the rendered strings can invert, so a descendant `a` of
`b` (subordinate via case-insensitive type comparison) can satisfy both
`Less a b` and `Less b a`. -/
theorem claim_c6_counterexample :
    DN.IsSubordinate ⟨[⟨[⟨"cn", "x"⟩]⟩, ⟨[⟨"A", "1"⟩, ⟨"b", "2"⟩]⟩], false, false⟩
      (some ⟨[⟨[⟨"a", "1"⟩, ⟨"B", "2"⟩]⟩], false, false⟩) = true ∧
    DNS.Less ⟨[⟨[⟨"cn", "x"⟩]⟩, ⟨[⟨"A", "1"⟩, ⟨"b", "2"⟩]⟩], false, false⟩
      ⟨[⟨[⟨"a", "1"⟩, ⟨"B", "2"⟩]⟩], false, false⟩ = true ∧
    DNS.Less ⟨[⟨[⟨"a", "1"⟩, ⟨"B", "2"⟩]⟩], false, false⟩
      ⟨[⟨[⟨"cn", "x"⟩]⟩, ⟨[⟨"A", "1"⟩, ⟨"b", "2"⟩]⟩], false, false⟩ = true := by
  refine ⟨by decide, by decide, by decide⟩

/-- C6 (amended): when the trailing RDNs of `a` coincide exactly with the
RDNs of the shorter DN `b`, both DNs carry the same `StringFold` flag, and
every RDN of `a` is non-empty, the order is as described: `a` is
subordinate to `b`, `Less a b` holds and `Less b a` does not - so such an
ancestor sorts strictly after its descendants. -/
theorem claim_c6_order (a b : DN)
    (hflag : a.StringFold = b.StringFold)
    (hlen : b.RDNs.length < a.RDNs.length)
    (htail : a.RDNs.drop (a.RDNs.length - b.RDNs.length) = b.RDNs) :
    a.IsSubordinate (some b) = true ∧ DNS.Less a b = true ∧ DNS.Less b a = false := by
  have hsub := isSub_of_tail hlen htail
  refine ⟨hsub, ?_, ?_⟩
  · unfold DNS.Less
    rw [if_pos hsub]
  · have hsub2 : b.IsSubordinate (some a) = false := by
      show (if b.RDNs.length ≤ a.RDNs.length then false else _) = false
      rw [if_pos (by omega)]
    have hsplit : a.RDNs
        = a.RDNs.take (a.RDNs.length - b.RDNs.length) ++ b.RDNs := by
      conv_lhs => rw [← List.take_append_drop (a.RDNs.length - b.RDNs.length) a.RDNs]
      rw [htail]
    have hfront : a.RDNs.take (a.RDNs.length - b.RDNs.length) ≠ [] := by
      intro hc
      have := congrArg List.length hc
      rw [List.length_take] at this
      simp at this
      omega
    have hrev : a.Reverse.RDNs = b.RDNs.reverse
        ++ (a.RDNs.take (a.RDNs.length - b.RDNs.length)).reverse := by
      show a.RDNs.reverse = _
      rw [hsplit, List.reverse_append]
      rw [← hsplit]
    unfold DNS.Less
    rw [hsub2]
    simp only [Bool.false_eq_true, if_false]
    cases hb : b.RDNs with
    | nil =>
      have hbrev : (DN.toString b.Reverse).data = [] := by
        show (DN.toString ⟨b.RDNs.reverse, b.CaseFold, b.StringFold⟩).data = []
        rw [hb]
        unfold DN.toString
        cases b.StringFold <;> rfl
      split
      · rw [hbrev]
        show ltL (lowerL (DN.toString a.Reverse).data) (lowerL []) = false
        exact ltL_nil_right _
      · rw [hbrev]
        exact ltL_nil_right _
    | cons r0 rest0 =>
      have hbne : b.RDNs ≠ [] := by rw [hb]; simp
      have hdecomp : dnChars a.Reverse.RDNs = dnChars b.RDNs.reverse
          ++ ',' :: dnChars (a.RDNs.take (a.RDNs.length - b.RDNs.length)).reverse := by
        rw [hrev]
        exact dnChars_append (by simp [hbne]) (by simp [hfront])
      have hsfa : a.Reverse.StringFold = b.StringFold := hflag
      have hsfb : b.Reverse.StringFold = b.StringFold := rfl
      have hToA : (DN.toString a.Reverse).data
          = if b.StringFold then lowerL (dnChars a.Reverse.RDNs)
            else dnChars a.Reverse.RDNs := by
        unfold DN.toString
        rw [hsfa]
        cases b.StringFold <;> rfl
      have hToB : (DN.toString b.Reverse).data
          = if b.StringFold then lowerL (dnChars b.RDNs.reverse)
            else dnChars b.RDNs.reverse := by
        unfold DN.toString
        rw [hsfb]
        cases b.StringFold <;> rfl
      split
      · show ltL (lowerL (DN.toString a.Reverse).data)
          (lowerL (DN.toString b.Reverse).data) = false
        rw [hToA, hToB]
        cases hsf : b.StringFold
        · rw [if_neg (by simp), if_neg (by simp), hdecomp, lowerL_comma_cons]
          exact ltL_append_self _ _
        · rw [if_pos rfl, if_pos rfl, hdecomp, lowerL_comma_cons, lowerL_comma_cons]
          exact ltL_append_self _ _
      · show ltL (DN.toString a.Reverse).data (DN.toString b.Reverse).data = false
        rw [hToA, hToB]
        cases hsf : b.StringFold
        · rw [if_neg (by simp), if_neg (by simp), hdecomp]
          exact ltL_append_self _ _
        · rw [if_pos rfl, if_pos rfl, hdecomp, lowerL_comma_cons]
          exact ltL_append_self _ _

theorem claim_c6_witness :
    DN.IsSubordinate ⟨[⟨[⟨"ou", "x"⟩]⟩, ⟨[⟨"dc", "org"⟩]⟩], false, false⟩
      (some ⟨[⟨[⟨"dc", "org"⟩]⟩], false, false⟩) = true ∧
    DNS.Less ⟨[⟨[⟨"ou", "x"⟩]⟩, ⟨[⟨"dc", "org"⟩]⟩], false, false⟩
      ⟨[⟨[⟨"dc", "org"⟩]⟩], false, false⟩ = true ∧
    DNS.Less ⟨[⟨[⟨"dc", "org"⟩]⟩], false, false⟩
      ⟨[⟨[⟨"ou", "x"⟩]⟩, ⟨[⟨"dc", "org"⟩]⟩], false, false⟩ = false :=
  claim_c6_order ⟨[⟨[⟨"ou", "x"⟩]⟩, ⟨[⟨"dc", "org"⟩]⟩], false, false⟩
    ⟨[⟨[⟨"dc", "org"⟩]⟩], false, false⟩ rfl (by decide) (by decide)
